import Mathlib

/-!
Verification of the unlinked-file reconciliation engine of `zotutil`
(`zotutil/zot.py` and `zotutil/tools.py`) against its specification.

The filesystem is modelled shallowly: a state `FS` holds the set of file
paths, the set of directory paths, and the contents of the persisted
relocation-record files (`_relocation_map.json`).  A path is its list of
components.  Operations that can raise in Python return `Res`, an
`Except`-like type whose error constructor also carries the filesystem
state at the moment the exception is raised (in Python the exception
propagates but the mutations performed so far persist on disk).

Iteration order of `Path.iterdir`, `Path.glob` and of Python `set`s is
filesystem/hash dependent; here it is the order of the representing
lists, so theorems quantified over all `FS` values cover all orders.
-/

set_option autoImplicit false

namespace ZotUtil

/-- An absolute filesystem path, as its list of components. -/
abbrev FsPath := List String

/-- A relocation record: an association list from quarantined path to
original path, in Python-`dict` insertion order.  (The JSON file stores
the `str` of each path; path ↔ string conversion is injective here so we
keep structured paths.) -/
abbrev Record := List (FsPath × FsPath)

/-- Filesystem state: files, directories, and the parsed contents of the
relocation-record files present on disk. -/
structure FS where
  files : List FsPath
  dirs : List FsPath
  recs : List (FsPath × Record)
  deriving DecidableEq, Repr

/-- Errors: the Python exceptions the modelled code can raise, plus
exhaustion of the step fuel used to model the (possibly deep) recursion
of `remove_empty_directories`. -/
inductive FsErr where
  | fuel
  | fileNotFound (p : FsPath)
  | fileAlready (p : FsPath)
  | dirNotEmpty (p : FsPath)
  | conflict (p : FsPath)
  | attrNone
  | noSession
  deriving DecidableEq, Repr

/-- Result of a filesystem operation; an error carries the state at the
moment the exception was raised. -/
inductive Res (α : Type) where
  | ok (a : α)
  | err (e : FsErr) (s : FS)
  deriving DecidableEq, Repr

/-- Sequencing of fallible filesystem steps: an exception short-circuits,
carrying the state at the raise. -/
def Res.bind {α β : Type} : Res α → (α → Res β) → Res β
  | .ok a, f => f a
  | .err e s, _ => .err e s

/-- `pathlib.PurePath.parent` (on the component list). -/
def parentPath (p : FsPath) : FsPath := p.dropLast

/-- `pathlib.PurePath.name` (last component). -/
def nameOf (p : FsPath) : String := p.getLastD ""

/-- `p` lies strictly below directory `r` (at any depth). -/
def strictUnder (r p : FsPath) : Prop := r <+: p ∧ r ≠ p

instance (r p : FsPath) : Decidable (strictUnder r p) := by
  unfold strictUnder; infer_instance

/-- `p` is an immediate child of directory `d`. -/
def childOf (p d : FsPath) : Prop := p ≠ [] ∧ p.dropLast = d

instance (p d : FsPath) : Decidable (childOf p d) := by
  unfold childOf; infer_instance

/-- Insert a path into a path list if not already present. -/
def insertP (l : List FsPath) (p : FsPath) : List FsPath :=
  if p ∈ l then l else p :: l

/-- Remove every occurrence of a path from a path list. -/
def eraseAllP (l : List FsPath) (p : FsPath) : List FsPath :=
  l.filter (fun q => decide (q ≠ p))

/-- `tuple(d.glob("*"))`: the immediate children of `d` (pathlib's `*`
also matches dot-files); empty when `d` does not exist. -/
def globStar (s : FS) (d : FsPath) : List FsPath :=
  s.files.filter (fun p => decide (childOf p d)) ++
    s.dirs.filter (fun p => decide (childOf p d))

/-- `tuple(item for item in d.iterdir() if item.is_dir())`: the immediate
subdirectories of `d`, in the order of the `dirs` list. -/
def childDirs (s : FS) (d : FsPath) : List FsPath :=
  s.dirs.filter (fun p => decide (childOf p d))

/-- `zotutil.tools.remove_ds_store`: unlink every `.DS_Store` file under
`root_directory` (pattern `**/.DS_Store`, any depth ≥ 1). -/
def remove_ds_store (root_directory : FsPath) (s : FS) : FS :=
  let keep := fun p => decide (¬ (strictUnder root_directory p ∧ nameOf p = ".DS_Store"))
  { s with files := s.files.filter keep }

/-- `Path.rmdir`: `FileNotFoundError` when missing, `OSError` when not
empty, else remove the directory. -/
def rmdirF (s : FS) (d : FsPath) : Res FS :=
  if d ∈ s.dirs then
    if globStar s d = [] then .ok { s with dirs := eraseAllP s.dirs d }
    else .err (.dirNotEmpty d) s
  else .err (.fileNotFound d) s

/-- The `for directory in tuple(...)` loop body of
`remove_empty_directories`, parametrised by the recursive call `go`.
For each subdirectory `d` of `parent` (snapshot `l`): when `d.glob("*")`
is empty, `d.rmdir()` (raising `FileNotFoundError` when a nested pass
already removed `d`), then recurse on `parent.parent` when
`root <= parent.parent` (for paths inside the root's subtree this is
exactly pathlib's string comparison); otherwise recurse into `d`. -/
def pruneLoop (go : FsPath → FS → Res FS) (root parent : FsPath) :
    List FsPath → FS → Res FS
  | [], s => .ok s
  | d :: rest, s =>
    if globStar s d = [] then
      (rmdirF s d).bind (fun s' =>
        if root <+: parentPath parent then
          (go (parentPath parent) s').bind (fun s'' => pruneLoop go root parent rest s'')
        else pruneLoop go root parent rest s')
    else
      (go d s).bind (fun s' => pruneLoop go root parent rest s')

/-- `zotutil.tools.remove_empty_directories(root_directory,
parent_directory)`: on darwin first remove every `.DS_Store` below
`parent`, then run the loop above over the snapshot of `parent`'s
subdirectories.  (`iterdir` raises `FileNotFoundError` when `parent`
does not exist.)  `fuel` bounds the recursion depth; every terminating
Python run is reproduced by any sufficiently large fuel. -/
def remove_empty_directories (darwin : Bool) (root : FsPath) :
    Nat → FsPath → FS → Res FS
  | 0, _, s => .err .fuel s
  | fuel + 1, parent, s =>
    let s1 := if darwin then remove_ds_store parent s else s
    if parent ∈ s1.dirs then
      pruneLoop (remove_empty_directories darwin root fuel) root parent
        (childDirs s1 parent) s1
    else .err (.fileNotFound parent) s1

/-- Python `dict` update with a single key: replace in place when the key
is present (keeping its position), else append. -/
def dictInsert (m : Record) (k v : FsPath) : Record :=
  if k ∈ m.map Prod.fst then
    m.map (fun kv => if kv.1 = k then (k, v) else kv)
  else m ++ [(k, v)]

/-- `dict(old, **new)`: copy `old`, then update with every entry of
`new` (so `new`'s values win on key collision). -/
def dictMerge (old new : Record) : Record :=
  new.foldl (fun acc kv => dictInsert acc kv.1 kv.2) old

/-- Lookup in a record. -/
def recLookup (m : Record) (k : FsPath) : Option FsPath :=
  (m.find? (fun kv => decide (kv.1 = k))).map Prod.snd

/-- Contents of the record file at `p` (defaulting to empty; in every
reachable state a record file's contents are tracked in `recs`). -/
def recsGet (s : FS) (p : FsPath) : Record :=
  ((s.recs.find? (fun kr => decide (kr.1 = p))).map Prod.snd).getD []

/-- Write the record file at `p` with contents `m`. -/
def writeRec (s : FS) (p : FsPath) (m : Record) : FS :=
  { s with files := insertP s.files p,
           recs := (p, m) :: s.recs.filter (fun kr => decide (kr.1 ≠ p)) }

/-- `Path.unlink`: remove a file (and, if it was a record file, its
tracked contents). -/
def unlinkF (s : FS) (p : FsPath) : FS :=
  { s with files := eraseAllP s.files p,
           recs := s.recs.filter (fun kr => decide (kr.1 ≠ p)) }

/-- `Path.rename(src, dst)` for files: the source disappears, the
destination appears (silently replacing an existing file). -/
def renameF (s : FS) (src dst : FsPath) : FS :=
  { s with files := insertP (eraseAllP s.files src) dst }

/-- `Path.mkdir()` (no parents): `FileExistsError` when the path exists,
`FileNotFoundError` when the parent is missing. -/
def mkdirF (s : FS) (d : FsPath) : Res FS :=
  if d ∈ s.files ∨ d ∈ s.dirs then .err (.fileAlready d) s
  else if parentPath d ∈ s.dirs then .ok { s with dirs := insertP s.dirs d }
  else .err (.fileNotFound (parentPath d)) s

/-- The nonempty prefixes of a path, shortest first (the chain of
directories `mkdir(parents=True)` may have to create). -/
def prefixesOf (d : FsPath) : List FsPath :=
  (List.range d.length).map (fun i => d.take (i + 1))

/-- `Path.mkdir(parents=True)`: create the directory and every missing
ancestor; `FileExistsError` when the path itself exists as a file. -/
def mkdirParentsF (s : FS) (d : FsPath) : Res FS :=
  if d ∈ s.files then .err (.fileAlready d) s
  else .ok { s with dirs := (prefixesOf d).foldl insertP s.dirs }

/-- `item.suffix.strip(".")`: pathlib's suffix (the part after the last
dot, provided that dot is neither the first nor the last character of
the name) with the leading dot stripped. -/
def pySuffixStripped (n : String) : String :=
  let cs := n.toList
  let ext := cs.reverse.takeWhile (fun c => decide (c ≠ '.'))
  if 0 < ext.length ∧ ext.length + 1 < cs.length then String.mk ext.reverse else ""

/-- Python `str.startswith`, on the character lists. -/
def pyStartsWith (s pre : String) : Bool := pre.toList.isPrefixOf s.toList

/-- The selection test of the inventory scan (lines 390–396 of
`zot.py`): a file strictly under the root whose
extension—`strip(".")`ed, compared verbatim—is in `file_types` and whose
immediate parent directory name does not start with `_unlinked_files`. -/
def isCandidate (root : FsPath) (file_types : List String) (p : FsPath) : Bool :=
  decide (strictUnder root p) &&
    decide (pySuffixStripped (nameOf p) ∈ file_types) &&
    !(pyStartsWith (nameOf (parentPath p)) "_unlinked_files")

/-- The candidate files of one reconciliation pass, in filesystem order. -/
def candidateFiles (root : FsPath) (file_types : List String) (s : FS) : List FsPath :=
  s.files.filter (isCandidate root file_types)

/-- `set(file_relative_paths) - set(attachment_paths)`: the unlinked
files (candidates minus the linked paths resolved against the root). -/
def unlinkedFiles (root : FsPath) (file_types : List String)
    (linked : List FsPath) (s : FS) : List FsPath :=
  (candidateFiles root file_types s).filter
    (fun p => decide (p ∉ linked.map (fun q => root ++ q)))

/-- The move loop of `relocate_unlinked_files`: for each unlinked file,
record `quarantined ↦ original` and rename it into the batch directory
under its basename. -/
def relocateMoves (rd : FsPath) : List FsPath → Record → FS → Record × FS
  | [], m, s => (m, s)
  | p :: rest, m, s =>
    relocateMoves rd rest (dictInsert m (rd ++ [nameOf p]) p)
      (renameF s p (rd ++ [nameOf p]))

/-- The batch directory name: `_unlinked_files`, suffixed with
`_<foldername_suffix>` when one is given. -/
def relocationDirName (foldername_suffix : Option String) : String :=
  match foldername_suffix with
  | none => "_unlinked_files"
  | some sfx => "_unlinked_files_" ++ sfx

/-- `Zot.relocate_unlinked_files` from line 379 on (the preference and
API retrieval above it is the out-of-scope collaborator): ensure the
batch directory exists, compute the unlinked files, move them, then
either write/merge the record file and set the session map (when at
least one file moved) or prune the batch directory, and finally prune
the root.  Returns the session map after the call and the fresh record
of this pass. -/
def relocate_unlinked_files (darwin : Bool) (root : FsPath)
    (file_types : List String) (linked : List FsPath)
    (foldername_suffix : Option String) (sess : Option Record)
    (s : FS) (fuel : Nat) : Res (Option Record × Record × FS) :=
  let rd := root ++ [relocationDirName foldername_suffix]
  (if rd ∈ s.dirs then Res.ok s else mkdirF s rd).bind (fun s1 =>
    let unlinked := unlinkedFiles root file_types linked s1
    let ms := relocateMoves rd unlinked [] s1
    if ms.1 = [] then
      (remove_empty_directories darwin rd fuel rd ms.2).bind (fun s3 =>
        (remove_empty_directories darwin root fuel root s3).bind (fun s4 =>
          .ok (sess, [], s4)))
    else
      let rf := rd ++ ["_relocation_map.json"]
      let mW := if rf ∈ ms.2.files then dictMerge (recsGet ms.2 rf) ms.1 else ms.1
      (remove_empty_directories darwin root fuel root (writeRec ms.2 rf mW)).bind (fun s4 =>
        .ok (some ms.1, ms.1, s4)))

/-- Inner loop of `remove_unlinked_files`: for each recorded quarantined
path still existing as a file, remember (once) the batch's record-file
path and unlink the file; missing paths are skipped. -/
def removeKeysLoop : List FsPath → Option FsPath → FS → Option FsPath × FS
  | [], mp, s => (mp, s)
  | k :: rest, mp, s =>
    if k ∈ s.files then
      let mp' := match mp with
        | none => some (parentPath k ++ ["_relocation_map.json"])
        | some q => some q
      removeKeysLoop rest mp' (unlinkF s k)
    else removeKeysLoop rest mp s

/-- Per-record loop of `remove_unlinked_files`: after a record's keys
are processed, `relocation_map_path.is_file()` is evaluated — an
`AttributeError` (`attrNone`) when no key existed as a file, since the
variable is still `None`; otherwise the record file is unlinked if
present. -/
def removeMapsLoop : List Record → FS → Res FS
  | [], s => .ok s
  | m :: rest, s =>
    let r := removeKeysLoop (m.map Prod.fst) none s
    match r.1 with
    | none => .err .attrNone r.2
    | some mp =>
      removeMapsLoop rest (if mp ∈ r.2.files then unlinkF r.2 mp else r.2)

/-- `Zot.remove_unlinked_files` applied to an already-resolved sequence
of relocation records: process each record, then prune the root. -/
def remove_unlinked_files (darwin : Bool) (root : FsPath) (maps : List Record)
    (s : FS) (fuel : Nat) : Res FS :=
  (removeMapsLoop maps s).bind (fun s1 =>
    remove_empty_directories darwin root fuel root s1)

/-- Inner loop of `restore_unlinked_files` over one record's
`(quarantined, original)` entries: for entries whose quarantined file
still exists, remember (once) the record-file path, create `original`'s
parent directory chain when missing, raise `ValueError` (`conflict`)
when `original` already exists as a file, else move quarantined →
original. -/
def restoreEntriesLoop : List (FsPath × FsPath) → Option FsPath → FS →
    Res (Option FsPath × FS)
  | [], mp, s => .ok (mp, s)
  | (q, o) :: rest, mp, s =>
    if q ∈ s.files then
      let mp' := match mp with
        | none => some (parentPath q ++ ["_relocation_map.json"])
        | some x => some x
      (if parentPath o ∈ s.dirs then Res.ok s else mkdirParentsF s (parentPath o)).bind
        (fun s1 =>
          if o ∈ s1.files then .err (.conflict o) s1
          else restoreEntriesLoop rest mp' (renameF s1 q o))
    else restoreEntriesLoop rest mp s

/-- Per-record loop of `restore_unlinked_files`; like the removal loop
it dereferences the possibly-still-`None` record-file path after the
entries are processed. -/
def restoreMapsLoop : List Record → FS → Res FS
  | [], s => .ok s
  | m :: rest, s =>
    (restoreEntriesLoop m none s).bind (fun r =>
      match r.1 with
      | none => .err .attrNone r.2
      | some p => restoreMapsLoop rest (if p ∈ r.2.files then unlinkF r.2 p else r.2))

/-- `Zot.restore_unlinked_files` applied to an already-resolved sequence
of records: process each record, then prune the root. -/
def restore_unlinked_files_maps (darwin : Bool) (root : FsPath)
    (maps : List Record) (s : FS) (fuel : Nat) : Res FS :=
  (restoreMapsLoop maps s).bind (fun s1 =>
    remove_empty_directories darwin root fuel root s1)

/-- `Zot._retrieve_unlinked_files_relocation_maps(this_relocation=True)`:
the session's in-memory map as a singleton, or `ValueError`
(`noSession`) when no relocation in this session set it. -/
def retrieveThisMaps (sess : Option Record) (s : FS) : Res (List Record) :=
  match sess with
  | none => .err .noSession s
  | some m => .ok [m]

/-- `Zot.restore_unlinked_files(this_relocation=True)`. -/
def restore_unlinked_files (darwin : Bool) (root : FsPath)
    (sess : Option Record) (s : FS) (fuel : Nat) : Res FS :=
  (retrieveThisMaps sess s).bind (fun maps =>
    restore_unlinked_files_maps darwin root maps s fuel)

/-- `Zot.remove_unlinked_files(this_relocation=True)`. -/
def remove_unlinked_files_this (darwin : Bool) (root : FsPath)
    (sess : Option Record) (s : FS) (fuel : Nat) : Res FS :=
  (retrieveThisMaps sess s).bind (fun maps =>
    remove_unlinked_files darwin root maps s fuel)

/-- `d` has no entry inside it at all (its `glob("*")` is empty). -/
def childless (s : FS) (d : FsPath) : Prop := globStar s d = []

/-- No `.DS_Store` file strictly below `root` (the state after the
darwin cleanup step, and trivially any state on other platforms). -/
def noDSunder (root : FsPath) (s : FS) : Prop :=
  ∀ f ∈ s.files, strictUnder root f → nameOf f ≠ ".DS_Store"

/-- Well-formed filesystem states rooted at `root`: the root exists, the
path lists are duplicate-free, no path is both a file and a directory,
and every proper nonempty prefix of an existing entry is an existing
directory. -/
structure Wf (root : FsPath) (s : FS) : Prop where
  root_dir : root ∈ s.dirs
  root_ne : root ≠ []
  nodupFiles : s.files.Nodup
  nodupDirs : s.dirs.Nodup
  disj : ∀ p ∈ s.files, p ∉ s.dirs
  parentsClosed : ∀ p, (p ∈ s.files ∨ p ∈ s.dirs) → ∀ q, q ≠ [] → q <+: p → q ≠ p →
    q ∈ s.dirs

/-- Executable check that every proper nonempty prefix of every entry is
a directory of the state. -/
def parentsClosedB (s : FS) : Bool :=
  (s.files ++ s.dirs).all (fun p =>
    (List.range p.length).all (fun k => k == 0 || decide (p.take k ∈ s.dirs)))

/-- Executable sufficient condition for `Wf`, for concrete witnesses. -/
def WfB (root : FsPath) (s : FS) : Bool :=
  decide (root ∈ s.dirs) && decide (root ≠ []) && decide s.files.Nodup &&
    decide s.dirs.Nodup && s.files.all (fun p => decide (p ∉ s.dirs)) &&
    parentsClosedB s

/-- Invariants satisfied by every successful pruning run relative to
`root`: files and record contents untouched, directories only removed,
removals confined strictly below the root, directories with a file
strictly below them kept, and no surviving directory other than the
root becomes newly childless. -/
structure PruneInv (root : FsPath) (sIn sOut : FS) : Prop where
  files_eq : sOut.files = sIn.files
  recs_eq : sOut.recs = sIn.recs
  dirs_sub : ∀ d, d ∈ sOut.dirs → d ∈ sIn.dirs
  removed_under : ∀ d, d ∈ sIn.dirs → d ∉ sOut.dirs → strictUnder root d
  keep_filedesc : ∀ d, d ∈ sIn.dirs → (∃ f, f ∈ sIn.files ∧ strictUnder d f) → d ∈ sOut.dirs
  new_childless : ∀ d, d ∈ sOut.dirs → childless sOut d → childless sIn d ∨ d = root

/-- What a successful call of `remove_empty_directories darwin root fuel`
guarantees, for activations on ds-clean states whose `parent` sits in
the root's subtree: the pruning invariants, preservation of
well-formedness, and no surviving childless directory strictly below
the activation's `parent`. -/
def PruneSpec (darwin : Bool) (root : FsPath) (go : FsPath → FS → Res FS) : Prop :=
  ∀ Q s s', Wf root s → (darwin = true → noDSunder root s) → root <+: Q → go Q s = .ok s' →
    PruneInv root s s' ∧ Wf root s' ∧
      ∀ d, d ∈ s'.dirs → strictUnder Q d → ¬ childless s' d

/-- Loop invariant of the pruning loop: every directory strictly below
`parent` not inside the subtree of a still-pending child is not
childless. -/
def LoopInv (parent : FsPath) (l : List FsPath) (s : FS) : Prop :=
  ∀ d, d ∈ s.dirs → strictUnder parent d → (∀ c ∈ l, ¬ c <+: d) → ¬ childless s d

/-- The directory list is closed under nonempty prefixes (the part of
well-formedness the restore loop preserves without any file-side
conditions). -/
def dirsClosed (s : FS) : Prop :=
  ∀ d ∈ s.dirs, ∀ q, q ≠ [] → q <+: d → q ∈ s.dirs

/-- No component of any path of the state begins with `_unlinked_files`:
the tree holds no batch directory, no quarantined file and nothing
masquerading as either. -/
def cleanNames (s : FS) : Prop :=
  ∀ p, p ∈ s.files ∨ p ∈ s.dirs → ∀ c ∈ p, pyStartsWith c "_unlinked_files" = false

/-! ### Basic lemmas about the filesystem primitives -/

theorem mem_insertP {l : List FsPath} {p q : FsPath} :
    q ∈ insertP l p ↔ q ∈ l ∨ q = p := by
  unfold insertP
  split
  · rename_i h
    constructor
    · exact Or.inl
    · rintro (hq | rfl)
      · exact hq
      · exact h
  · simp only [List.mem_cons]
    tauto

theorem mem_eraseAllP {l : List FsPath} {p q : FsPath} :
    q ∈ eraseAllP l p ↔ q ∈ l ∧ q ≠ p := by
  unfold eraseAllP
  simp

theorem nodup_insertP {l : List FsPath} {p : FsPath} (h : l.Nodup) :
    (insertP l p).Nodup := by
  unfold insertP
  split
  · exact h
  · exact List.Nodup.cons (by assumption) h

theorem nodup_eraseAllP {l : List FsPath} {p : FsPath} (h : l.Nodup) :
    (eraseAllP l p).Nodup := List.Nodup.filter _ h

theorem childOf_parent_prefix {c d : FsPath} (h : childOf c d) : d <+: c := by
  obtain ⟨hne, hdrop⟩ := h
  refine ⟨[c.getLast hne], ?_⟩
  rw [← hdrop]
  exact List.dropLast_append_getLast hne

theorem childOf_length {c d : FsPath} (h : childOf c d) : c.length = d.length + 1 := by
  obtain ⟨hne, hdrop⟩ := h
  have h1 : c.dropLast.length = c.length - 1 := List.length_dropLast c
  rw [hdrop] at h1
  have h2 : 0 < c.length := List.length_pos.mpr hne
  omega

theorem childless_iff {s : FS} {d : FsPath} :
    childless s d ↔ ∀ p, (p ∈ s.files ∨ p ∈ s.dirs) → ¬ childOf p d := by
  unfold childless globStar
  rw [List.append_eq_nil, List.filter_eq_nil_iff, List.filter_eq_nil_iff]
  constructor
  · rintro ⟨h1, h2⟩ p hp hc
    rcases hp with hp | hp
    · exact h1 p hp (decide_eq_true hc)
    · exact h2 p hp (decide_eq_true hc)
  · intro h
    exact ⟨fun p hp hd => h p (Or.inl hp) (of_decide_eq_true hd),
           fun p hp hd => h p (Or.inr hp) (of_decide_eq_true hd)⟩

/-- A childless directory of a well-formed state has no entry strictly
below it at all. -/
theorem childless_no_sub {s : FS} {d : FsPath} (hw : ∀ p, (p ∈ s.files ∨ p ∈ s.dirs) →
    ∀ q, q ≠ [] → q <+: p → q ≠ p → q ∈ s.dirs)
    (hc : childless s d) :
    ∀ p, (p ∈ s.files ∨ p ∈ s.dirs) → ¬ strictUnder d p := by
  intro p hp ⟨hpre, hne⟩
  rcases hpre with ⟨t, rfl⟩
  rcases t with _ | ⟨a, t'⟩
  · simp at hne
  · have hcchild : childOf (d ++ [a]) d := by
      refine ⟨by simp, ?_⟩
      exact List.dropLast_concat
    have hcpre : (d ++ [a]) <+: d ++ a :: t' := by
      refine ⟨t', by simp⟩
    have hcmem : (d ++ [a]) ∈ s.files ∨ (d ++ [a]) ∈ s.dirs := by
      by_cases hcp : d ++ [a] = d ++ a :: t'
      · rw [hcp]; exact hp
      · exact Or.inr (hw _ hp _ (by simp) hcpre hcp)
    exact childless_iff.mp hc _ hcmem hcchild

theorem strictUnder_length {d p : FsPath} (h : strictUnder d p) : d.length < p.length := by
  obtain ⟨⟨t, rfl⟩, hne⟩ := h
  rcases t with _ | ⟨a, t⟩
  · simp at hne
  · simp

theorem strictUnder_trans_left {r d p : FsPath} (h1 : r <+: d) (h2 : strictUnder d p) :
    strictUnder r p := by
  refine ⟨h1.trans h2.1, ?_⟩
  rintro rfl
  have := h1.length_le
  have := strictUnder_length h2
  omega

theorem strictUnder_of_childOf {c parent root : FsPath} (hc : childOf c parent)
    (hpar : root <+: parent) : strictUnder root c := by
  refine ⟨hpar.trans ( childOf_parent_prefix hc), ?_⟩
  intro h
  have h1 := hpar.length_le
  have h2 := childOf_length hc
  rw [h] at h1
  omega

theorem strictUnder_of_strict_prefix {r p : FsPath} (h : r <+: p) (hne : r ≠ p) :
    strictUnder r p := ⟨h, hne⟩

theorem prefix_dropLast_of_proper {r p : FsPath} (h : r <+: p) (hne : r ≠ p) :
    r <+: parentPath p := by
  obtain ⟨t, rfl⟩ := h
  rcases t with _ | ⟨a, t⟩
  · simp at hne
  · unfold parentPath
    rw [List.dropLast_append_of_ne_nil _ (by simp)]
    exact List.prefix_append _ _

theorem mem_childDirs {s : FS} {d c : FsPath} :
    c ∈ childDirs s d ↔ c ∈ s.dirs ∧ childOf c d := by
  unfold childDirs
  simp

/-- On states with no `.DS_Store` below the root, the darwin cleanup
step inside the pruning pass is the identity (which is the situation in
every nested call, since the top-level call removes them all first). -/
theorem remove_ds_store_eq {root parent : FsPath} {s : FS} (hds : noDSunder root s)
    (hpar : root <+: parent) : remove_ds_store parent s = s := by
  unfold remove_ds_store
  have : s.files.filter
      (fun p => decide (¬ (strictUnder parent p ∧ nameOf p = ".DS_Store"))) = s.files := by
    rw [List.filter_eq_self]
    intro p hp
    simp only [decide_eq_true_eq]
    rintro ⟨hsu, hname⟩
    exact hds p hp (strictUnder_trans_left hpar hsu) hname
  simp only [this]

theorem PruneInv.refl {root : FsPath} {s : FS} : PruneInv root s s where
  files_eq := Eq.refl _
  recs_eq := Eq.refl _
  dirs_sub := fun _ h => h
  removed_under := fun _ h h' => absurd h h'
  keep_filedesc := fun _ h _ => h
  new_childless := fun _ _ h => Or.inl h

theorem PruneInv.trans {root : FsPath} {s1 s2 s3 : FS} (a : PruneInv root s1 s2)
    (b : PruneInv root s2 s3) : PruneInv root s1 s3 where
  files_eq := b.files_eq.trans a.files_eq
  recs_eq := b.recs_eq.trans a.recs_eq
  dirs_sub := fun d h => a.dirs_sub d (b.dirs_sub d h)
  removed_under := fun d h h' => by
    by_cases h2 : d ∈ s2.dirs
    · exact b.removed_under d h2 h'
    · exact a.removed_under d h h2
  keep_filedesc := fun d h hf => by
    refine b.keep_filedesc d (a.keep_filedesc d h hf) ?_
    rw [a.files_eq]
    exact hf
  new_childless := fun d h hc => by
    rcases b.new_childless d h hc with hc2 | hr
    · exact a.new_childless d (b.dirs_sub d h) hc2
    · exact Or.inr hr

theorem Res.bind_eq_ok {α β : Type} {r : Res α} {f : α → Res β} {b : β} :
    r.bind f = .ok b ↔ ∃ a, r = .ok a ∧ f a = .ok b := by
  cases r <;> simp [Res.bind]

theorem Res.bind_ok {α β : Type} (a : α) (f : α → Res β) : (Res.ok a).bind f = f a := rfl

theorem Res.bind_err {α β : Type} (e : FsErr) (s : FS) (f : α → Res β) :
    (Res.err e s : Res α).bind f = .err e s := rfl

theorem rmdirF_ok {s : FS} {c : FsPath} (hc : c ∈ s.dirs) (hcs : globStar s c = []) :
    rmdirF s c = .ok { s with dirs := eraseAllP s.dirs c } := by
  unfold rmdirF
  rw [if_pos hc, if_pos hcs]

theorem rmdirF_missing {s : FS} {c : FsPath} (hc : c ∉ s.dirs) :
    rmdirF s c = .err (.fileNotFound c) s := by
  unfold rmdirF
  rw [if_neg hc]

theorem wf_erase_childless {root : FsPath} {s : FS} {c : FsPath} (hw : Wf root s)
    (hcs : childless s c) (hcr : c ≠ root) :
    Wf root { s with dirs := eraseAllP s.dirs c } where
  root_dir := mem_eraseAllP.mpr ⟨hw.root_dir, fun h => hcr h.symm⟩
  root_ne := hw.root_ne
  nodupFiles := hw.nodupFiles
  nodupDirs := nodup_eraseAllP hw.nodupDirs
  disj := fun p hp hmem => hw.disj p hp (mem_eraseAllP.mp hmem).1
  parentsClosed := by
    intro p hp q hqne hqp hqnep
    have hp' : p ∈ s.files ∨ p ∈ s.dirs := by
      rcases hp with h | h
      · exact Or.inl h
      · exact Or.inr (mem_eraseAllP.mp h).1
    have hq := hw.parentsClosed p hp' q hqne hqp hqnep
    refine mem_eraseAllP.mpr ⟨hq, ?_⟩
    rintro rfl
    exact childless_no_sub hw.parentsClosed hcs p hp' ⟨hqp, hqnep⟩

theorem erase_new_childless {s : FS} {c d : FsPath}
    (hcd : childless { s with dirs := eraseAllP s.dirs c } d) :
    childless s d ∨ d = parentPath c := by
  by_cases hpc : d = parentPath c
  · exact Or.inr hpc
  · left
    rw [childless_iff]
    intro p hp hchild
    have hpne : p ≠ c := by
      rintro rfl
      exact hpc (hchild.2 ▸ Eq.refl _)
    have hp' : p ∈ ({ s with dirs := eraseAllP s.dirs c } : FS).files ∨
        p ∈ ({ s with dirs := eraseAllP s.dirs c } : FS).dirs := by
      rcases hp with h | h
      · exact Or.inl h
      · exact Or.inr (mem_eraseAllP.mpr ⟨h, hpne⟩)
    exact childless_iff.mp hcd p hp' hchild

theorem erase_keep_filedesc {root : FsPath} {s : FS} {c d : FsPath} (hw : Wf root s)
    (hcs : childless s c) (hd : d ∈ s.dirs) (hf : ∃ f, f ∈ s.files ∧ strictUnder d f) :
    d ∈ eraseAllP s.dirs c := by
  obtain ⟨f, hfmem, hfsu⟩ := hf
  refine mem_eraseAllP.mpr ⟨hd, ?_⟩
  rintro rfl
  exact childless_no_sub hw.parentsClosed hcs f (Or.inl hfmem) hfsu

/-- The invariants of the pruning loop, proved by induction over the
pending snapshot list, assuming `PruneSpec` for the nested calls. -/
theorem pruneLoop_spec {darwin : Bool} {root : FsPath} {go : FsPath → FS → Res FS}
    (Hgo : PruneSpec darwin root go) {parent : FsPath} (hpar : root <+: parent) :
    ∀ (l : List FsPath) (s s' : FS), Wf root s → (darwin = true → noDSunder root s) →
      (∀ c ∈ l, childOf c parent) → LoopInv parent l s →
      pruneLoop go root parent l s = .ok s' →
      PruneInv root s s' ∧ Wf root s' ∧ LoopInv parent [] s' := by
  intro l
  induction l with
  | nil =>
    intro s s' hw hds _ hinv hok
    simp only [pruneLoop, Res.ok.injEq] at hok
    subst hok
    exact ⟨PruneInv.refl, hw, hinv⟩
  | cons c rest ih =>
    intro s s' hw hds hch hinv hok
    have hcchild : childOf c parent := hch c (List.mem_cons_self c rest)
    have hcrootsu : strictUnder root c := strictUnder_of_childOf hcchild hpar
    have hcneroot : c ≠ root := fun h => hcrootsu.2 h.symm
    have hch' : ∀ c' ∈ rest, childOf c' parent :=
      fun c' h => hch c' (List.mem_cons_of_mem _ h)
    simp only [pruneLoop] at hok
    by_cases hcs : globStar s c = []
    · rw [if_pos hcs] at hok
      by_cases hcd : c ∈ s.dirs
      · rw [rmdirF_ok hcd hcs, Res.bind_ok] at hok
        have hw1 : Wf root { s with dirs := eraseAllP s.dirs c } :=
          wf_erase_childless hw hcs hcneroot
        have hds1 : darwin = true → noDSunder root { s with dirs := eraseAllP s.dirs c } :=
          fun hdw f hf => hds hdw f hf
        by_cases hup : root <+: parentPath parent
        · rw [if_pos hup, Res.bind_eq_ok] at hok
          obtain ⟨s2, hrec, hok⟩ := hok
          obtain ⟨inv2, hw2, scoped2⟩ := Hgo (parentPath parent) _ s2 hw1 hds1 hup hrec
          have hds2 : darwin = true → noDSunder root s2 := by
            intro hdw f hf
            rw [inv2.files_eq] at hf
            exact hds1 hdw f hf
          have hinv2 : LoopInv parent rest s2 := by
            intro d hd hsu _
            exact scoped2 d hd (strictUnder_trans_left (List.dropLast_prefix parent) hsu)
          obtain ⟨inv3, hw3, hinv3⟩ := ih s2 s' hw2 hds2 hch' hinv2 hok
          refine ⟨?_, hw3, hinv3⟩
          have comp : PruneInv root { s with dirs := eraseAllP s.dirs c } s' :=
            inv2.trans inv3
          refine { files_eq := comp.files_eq, recs_eq := comp.recs_eq,
                   dirs_sub := ?_, removed_under := ?_, keep_filedesc := ?_,
                   new_childless := ?_ }
          · exact fun d hd => (mem_eraseAllP.mp (comp.dirs_sub d hd)).1
          · intro d hd hd'
            by_cases h1 : d ∈ ({ s with dirs := eraseAllP s.dirs c } : FS).dirs
            · exact comp.removed_under d h1 hd'
            · have : d = c := by
                by_contra hne
                exact h1 (mem_eraseAllP.mpr ⟨hd, hne⟩)
              rw [this]
              exact hcrootsu
          · intro d hd hf
            exact comp.keep_filedesc d (erase_keep_filedesc hw hcs hd hf) hf
          · intro d hd hcl
            rcases comp.new_childless d hd hcl with h1 | h1
            · rcases erase_new_childless h1 with h2 | h2
              · exact Or.inl h2
              · -- `d` is the loop's `parent`; the nested pass on
                -- `parent.parent` leaves no childless directory there
                exfalso
                have hdparent : d = parent := by rw [h2, parentPath, hcchild.2]
                have hd2 : d ∈ s2.dirs := inv3.dirs_sub d hd
                have hcl2 : childless s2 d := by
                  rcases inv3.new_childless d hd hcl with h3 | h3
                  · exact h3
                  · exfalso
                    rw [h3] at hdparent
                    rw [← hdparent] at hup
                    have hlen := hup.length_le
                    have h5 : (parentPath root).length = root.length - 1 :=
                      List.length_dropLast root
                    have h6 : 0 < root.length := List.length_pos.mpr hw.root_ne
                    omega
                have hchne : parent ≠ [] := by
                  intro h0
                  apply hw.root_ne
                  have h5 := hpar.length_le
                  rw [h0] at h5
                  simp only [List.length_nil] at h5
                  exact List.length_eq_zero.mp (Nat.le_zero.mp h5)
                refine scoped2 d hd2 ?_ hcl2
                rw [hdparent]
                refine ⟨List.dropLast_prefix parent, ?_⟩
                intro h0
                have h7 : (parentPath parent).length = parent.length - 1 :=
                  List.length_dropLast parent
                rw [h0] at h7
                have h8 : 0 < parent.length := List.length_pos.mpr hchne
                omega
            · exact Or.inr h1
        · rw [if_neg hup] at hok
          have hparroot : parent = root := by
            by_contra hne
            exact hup (prefix_dropLast_of_proper hpar (fun h => hne h.symm))
          have hinv1 : LoopInv parent rest { s with dirs := eraseAllP s.dirs c } := by
            intro d hd hsu hnp
            have hdmem := (mem_eraseAllP.mp hd).1
            have hdnec := (mem_eraseAllP.mp hd).2
            have hncd : ¬ c <+: d := by
              intro hcdpre
              exact childless_no_sub hw.parentsClosed hcs d (Or.inr hdmem)
                ⟨hcdpre, fun h => hdnec h.symm⟩
            have hnochild : ¬ childless s d := by
              refine hinv d hdmem hsu ?_
              intro c' hc'
              rcases List.mem_cons.mp hc' with rfl | h
              · exact hncd
              · exact hnp c' h
            intro hcs1d
            rcases erase_new_childless hcs1d with h | h
            · exact hnochild h
            · rw [h, parentPath, hcchild.2] at hsu
              exact hsu.2 rfl
          obtain ⟨inv3, hw3, hinv3⟩ := ih _ s' hw1 hds1 hch' hinv1 hok
          refine ⟨?_, hw3, hinv3⟩
          refine { files_eq := inv3.files_eq, recs_eq := inv3.recs_eq,
                   dirs_sub := ?_, removed_under := ?_, keep_filedesc := ?_,
                   new_childless := ?_ }
          · exact fun d hd => (mem_eraseAllP.mp (inv3.dirs_sub d hd)).1
          · intro d hd hd'
            by_cases h1 : d ∈ ({ s with dirs := eraseAllP s.dirs c } : FS).dirs
            · exact inv3.removed_under d h1 hd'
            · have : d = c := by
                by_contra hne
                exact h1 (mem_eraseAllP.mpr ⟨hd, hne⟩)
              rw [this]
              exact hcrootsu
          · intro d hd hf
            exact inv3.keep_filedesc d (erase_keep_filedesc hw hcs hd hf) hf
          · intro d hd hcl
            rcases inv3.new_childless d hd hcl with h1 | h1
            · rcases erase_new_childless h1 with h2 | h2
              · exact Or.inl h2
              · right
                rw [h2, parentPath, hcchild.2, hparroot]
            · exact Or.inr h1
      · rw [rmdirF_missing hcd, Res.bind_err] at hok
        exact absurd hok (by simp)
    · rw [if_neg hcs, Res.bind_eq_ok] at hok
      obtain ⟨s2, hrec, hok⟩ := hok
      obtain ⟨inv2, hw2, scoped2⟩ := Hgo c s s2 hw hds hcrootsu.1 hrec
      have hds2 : darwin = true → noDSunder root s2 := by
        intro hdw f hf
        rw [inv2.files_eq] at hf
        exact hds hdw f hf
      have hinv2 : LoopInv parent rest s2 := by
        intro d hd hsu hnp
        by_cases hcpre : c <+: d
        · by_cases hdc : d = c
          · subst hdc
            intro hcl
            rcases inv2.new_childless d hd hcl with h | h
            · exact hcs h
            · exact hcneroot h
          · exact scoped2 d hd ⟨hcpre, fun h => hdc h.symm⟩
        · intro hcl
          rcases inv2.new_childless d hd hcl with h | h
          · refine hinv d (inv2.dirs_sub d hd) hsu ?_ h
            intro c' hc'
            rcases List.mem_cons.mp hc' with rfl | hm
            · exact hcpre
            · exact hnp c' hm
          · subst h
            have h1 := strictUnder_length hsu
            have h2 := hpar.length_le
            omega
      obtain ⟨inv3, hw3, hinv3⟩ := ih s2 s' hw2 hds2 hch' hinv2 hok
      exact ⟨inv2.trans inv3, hw3, hinv3⟩

/-- Every successful run of `remove_empty_directories` on a ds-clean
state satisfies the pruning invariants. -/
theorem remove_empty_directories_spec (darwin : Bool) (root : FsPath) :
    ∀ fuel, PruneSpec darwin root (remove_empty_directories darwin root fuel) := by
  intro fuel
  induction fuel with
  | zero =>
    intro Q s s' _ _ _ hok
    simp [remove_empty_directories] at hok
  | succ fuel ih =>
    intro Q s s' hw hds hQ hok
    simp only [remove_empty_directories] at hok
    have hid : (if darwin then remove_ds_store Q s else s) = s := by
      cases darwin
      · rfl
      · simpa using remove_ds_store_eq (hds rfl) hQ
    rw [hid] at hok
    by_cases hQs : Q ∈ s.dirs
    · rw [if_pos hQs] at hok
      have hinv0 : LoopInv Q (childDirs s Q) s := by
        intro d hd hsu hnp
        exfalso
        obtain ⟨⟨t, ht⟩, hne⟩ := hsu
        rcases t with _ | ⟨a, t'⟩
        · exact hne (by rw [← ht]; simp)
        · have hchild : childOf (Q ++ [a]) Q := ⟨by simp, List.dropLast_concat⟩
          have hpre : (Q ++ [a]) <+: d := by
            rw [← ht]
            exact ⟨t', by simp⟩
          have hmem : Q ++ [a] ∈ s.dirs := by
            by_cases hqd : Q ++ [a] = d
            · rw [hqd]; exact hd
            · exact hw.parentsClosed d (Or.inr hd) _ (by simp) hpre hqd
          exact hnp (Q ++ [a]) (mem_childDirs.mpr ⟨hmem, hchild⟩) hpre
      have hch0 : ∀ c ∈ childDirs s Q, childOf c Q := fun c hc => (mem_childDirs.mp hc).2
      obtain ⟨inv, hw', hinvEnd⟩ :=
        pruneLoop_spec ih hQ (childDirs s Q) s s' hw hds hch0 hinv0 hok
      refine ⟨inv, hw', ?_⟩
      intro d hd hsu
      exact hinvEnd d hd hsu (fun c h => absurd h (List.not_mem_nil c))
    · rw [if_neg hQs] at hok
      exact absurd hok (by simp)

/-- Unconditional facts about any successful pruning run (no
well-formedness needed): the record-file contents are untouched, files
are only ever removed, and directories are only ever removed. -/
theorem pruneLoop_shape {go : FsPath → FS → Res FS}
    (Hgo : ∀ Q s s', go Q s = .ok s' → s'.recs = s.recs ∧
      (∀ f, f ∈ s'.files → f ∈ s.files) ∧ (∀ d, d ∈ s'.dirs → d ∈ s.dirs))
    (root parent : FsPath) :
    ∀ (l : List FsPath) (s s' : FS), pruneLoop go root parent l s = .ok s' →
      s'.recs = s.recs ∧ (∀ f, f ∈ s'.files → f ∈ s.files) ∧
        (∀ d, d ∈ s'.dirs → d ∈ s.dirs) := by
  intro l
  induction l with
  | nil =>
    intro s s' hok
    simp only [pruneLoop, Res.ok.injEq] at hok
    subst hok
    exact ⟨rfl, fun _ h => h, fun _ h => h⟩
  | cons c rest ih =>
    intro s s' hok
    simp only [pruneLoop] at hok
    by_cases hcs : globStar s c = []
    · rw [if_pos hcs] at hok
      by_cases hcd : c ∈ s.dirs
      · rw [rmdirF_ok hcd hcs, Res.bind_ok] at hok
        by_cases hup : root <+: parentPath parent
        · rw [if_pos hup, Res.bind_eq_ok] at hok
          obtain ⟨s2, hrec, hok⟩ := hok
          obtain ⟨r1, f1, d1⟩ := Hgo _ _ _ hrec
          obtain ⟨r2, f2, d2⟩ := ih _ _ hok
          refine ⟨by rw [r2, r1], fun f hf => f1 f (f2 f hf), ?_⟩
          intro d hd
          exact (mem_eraseAllP.mp (d1 d (d2 d hd))).1
        · rw [if_neg hup] at hok
          obtain ⟨r2, f2, d2⟩ := ih _ _ hok
          exact ⟨r2, f2, fun d hd => (mem_eraseAllP.mp (d2 d hd)).1⟩
      · rw [rmdirF_missing hcd, Res.bind_err] at hok
        exact absurd hok (by simp)
    · rw [if_neg hcs, Res.bind_eq_ok] at hok
      obtain ⟨s2, hrec, hok⟩ := hok
      obtain ⟨r1, f1, d1⟩ := Hgo _ _ _ hrec
      obtain ⟨r2, f2, d2⟩ := ih _ _ hok
      exact ⟨by rw [r2, r1], fun f hf => f1 f (f2 f hf), fun d hd => d1 d (d2 d hd)⟩

theorem remove_empty_directories_shape (darwin : Bool) (root : FsPath) :
    ∀ (fuel : Nat) (Q : FsPath) (s s' : FS),
      remove_empty_directories darwin root fuel Q s = .ok s' →
      s'.recs = s.recs ∧ (∀ f, f ∈ s'.files → f ∈ s.files) ∧
        (∀ d, d ∈ s'.dirs → d ∈ s.dirs) := by
  intro fuel
  induction fuel with
  | zero =>
    intro Q s s' hok
    simp [remove_empty_directories] at hok
  | succ fuel ih =>
    intro Q s s' hok
    simp only [remove_empty_directories] at hok
    by_cases hQs : Q ∈ (if darwin then remove_ds_store Q s else s).dirs
    · rw [if_pos hQs] at hok
      obtain ⟨r1, f1, d1⟩ := pruneLoop_shape ih root Q _ _ _ hok
      have hsub : ∀ f, f ∈ (if darwin then remove_ds_store Q s else s).files → f ∈ s.files := by
        cases darwin
        · exact fun f hf => hf
        · intro f hf
          simp only [if_true] at hf
          exact List.mem_of_mem_filter hf
      have hrec : (if darwin then remove_ds_store Q s else s).recs = s.recs := by
        cases darwin
        · rfl
        · rfl
      have hdir : (if darwin then remove_ds_store Q s else s).dirs = s.dirs := by
        cases darwin
        · rfl
        · rfl
      refine ⟨by rw [r1, hrec], fun f hf => hsub f (f1 f hf), ?_⟩
      intro d hd
      rw [← hdir]
      exact d1 d hd
    · rw [if_neg hQs] at hok
      exact absurd hok (by simp)

theorem pruneLoop_files_eq {go : FsPath → FS → Res FS}
    (Hgo : ∀ Q s s', go Q s = .ok s' → s'.files = s.files) (root parent : FsPath) :
    ∀ (l : List FsPath) (s s' : FS), pruneLoop go root parent l s = .ok s' →
      s'.files = s.files := by
  intro l
  induction l with
  | nil =>
    intro s s' hok
    simp only [pruneLoop, Res.ok.injEq] at hok
    rw [← hok]
  | cons c rest ih =>
    intro s s' hok
    simp only [pruneLoop] at hok
    by_cases hcs : globStar s c = []
    · rw [if_pos hcs] at hok
      by_cases hcd : c ∈ s.dirs
      · rw [rmdirF_ok hcd hcs, Res.bind_ok] at hok
        by_cases hup : root <+: parentPath parent
        · rw [if_pos hup, Res.bind_eq_ok] at hok
          obtain ⟨s2, hrec, hok⟩ := hok
          rw [ih _ _ hok, Hgo _ _ _ hrec]
        · rw [if_neg hup] at hok
          have h2 := ih _ _ hok
          exact h2
      · rw [rmdirF_missing hcd, Res.bind_err] at hok
        exact absurd hok (by simp)
    · rw [if_neg hcs, Res.bind_eq_ok] at hok
      obtain ⟨s2, hrec, hok2⟩ := hok
      rw [ih _ _ hok2, Hgo _ _ _ hrec]

/-- On non-darwin platforms a successful pruning run never touches any
file. -/
theorem remove_empty_directories_files_false (root : FsPath) :
    ∀ (fuel : Nat) (Q : FsPath) (s s' : FS),
      remove_empty_directories false root fuel Q s = .ok s' → s'.files = s.files := by
  intro fuel
  induction fuel with
  | zero =>
    intro Q s s' hok
    simp [remove_empty_directories] at hok
  | succ fuel ih =>
    intro Q s s' hok
    simp only [remove_empty_directories, Bool.false_eq_true, if_false] at hok
    by_cases hQs : Q ∈ s.dirs
    · rw [if_pos hQs] at hok
      exact pruneLoop_files_eq ih root Q _ s s' hok
    · rw [if_neg hQs] at hok
      exact absurd hok (by simp)

/-! ### The inventory scan (claims C5 and C6) -/

theorem mem_candidateFiles {root : FsPath} {file_types : List String} {s : FS} {p : FsPath} :
    p ∈ candidateFiles root file_types s ↔
      p ∈ s.files ∧ strictUnder root p ∧ pySuffixStripped (nameOf p) ∈ file_types ∧
        pyStartsWith (nameOf (parentPath p)) "_unlinked_files" = false := by
  unfold candidateFiles isCandidate
  rw [List.mem_filter, Bool.and_eq_true, Bool.and_eq_true, decide_eq_true_eq,
    decide_eq_true_eq, Bool.not_eq_true', and_assoc]

theorem mem_unlinkedFiles {root : FsPath} {file_types : List String} {linked : List FsPath}
    {s : FS} {p : FsPath} :
    p ∈ unlinkedFiles root file_types linked s ↔
      p ∈ candidateFiles root file_types s ∧ p ∉ linked.map (fun q => root ++ q) := by
  unfold unlinkedFiles
  rw [List.mem_filter]
  simp

/-- Anatomy of `List.takeWhile`: all taken elements satisfy the
predicate, and either everything was taken or the next element fails it. -/
theorem takeWhile_anatomy {p : Char → Bool} : ∀ L : List Char,
    (∀ x ∈ L.takeWhile p, p x = true) ∧
      (L.takeWhile p = L ∨
        ∃ c rest, L = L.takeWhile p ++ c :: rest ∧ p c = false) := by
  intro L
  induction L with
  | nil => simp
  | cons x xs ih =>
    by_cases hx : p x = true
    · rw [List.takeWhile_cons_of_pos hx]
      refine ⟨?_, ?_⟩
      · intro y hy
        rcases List.mem_cons.mp hy with rfl | hy'
        · exact hx
        · exact ih.1 y hy'
      · rcases ih.2 with h | ⟨c, rest, heq, hc⟩
        · left; rw [h]
        · right
          exact ⟨c, rest, by rw [List.cons_append, ← heq], hc⟩
    · have hpx : p x = false := by
        cases h : p x
        · rfl
        · exact absurd h hx
      rw [List.takeWhile_cons_of_neg hx]
      exact ⟨by simp, Or.inr ⟨x, xs, by simp, hpx⟩⟩

/-- pathlib's stripped suffix, characterised: for a nonempty dot-free
`e`, the scan computes extension `e` exactly when the name is
`<something nonempty>.<e>`. -/
theorem pySuffixStripped_eq_iff {n e : String} (he1 : e.toList ≠ [])
    (he2 : ∀ c ∈ e.toList, c ≠ '.') :
    pySuffixStripped n = e ↔ ∃ m, m ≠ [] ∧ n.toList = m ++ '.' :: e.toList := by
  unfold pySuffixStripped
  constructor
  · intro h
    by_cases hcond : 0 < (n.toList.reverse.takeWhile (fun c => decide (c ≠ '.'))).length ∧
        (n.toList.reverse.takeWhile (fun c => decide (c ≠ '.'))).length + 1 < n.toList.length
    · rw [if_pos hcond] at h
      set ext := n.toList.reverse.takeWhile (fun c => decide (c ≠ '.')) with hext
      have hextE : ext.reverse = e.toList := congrArg String.toList h
      rcases (takeWhile_anatomy n.toList.reverse).2 with hall | ⟨c, rest, heq, hc⟩
      · rw [← hext] at hall
        have h5 : ext.length = n.toList.reverse.length := by rw [hall]
        rw [List.length_reverse] at h5
        omega
      · rw [← hext] at heq
        have hcdot : c = '.' := by
          have := of_decide_eq_false hc
          by_contra hne
          exact this hne
        subst hcdot
        have hn : n.toList = rest.reverse ++ '.' :: ext.reverse := by
          have h6 := congrArg List.reverse heq
          simpa using h6
        refine ⟨rest.reverse, ?_, by rw [hn, hextE]⟩
        intro h0
        have h7 : rest.length = 0 := by simpa using congrArg List.length h0
        have hlen := congrArg List.length heq
        rw [List.length_reverse, List.length_append, List.length_cons] at hlen
        omega
    · rw [if_neg hcond] at h
      exact absurd (congrArg String.toList h.symm) (by simpa using he1)
  · rintro ⟨m, hm, hn⟩
    have hrev : n.toList.reverse = e.toList.reverse ++ '.' :: m.reverse := by
      rw [hn]
      simp
    have htakeAux : ∀ L : List Char, (∀ x ∈ L, x ≠ '.') →
        (L ++ '.' :: m.reverse).takeWhile (fun c => decide (c ≠ '.')) = L := by
      intro L hL
      induction L with
      | nil =>
        rw [List.nil_append]
        exact List.takeWhile_cons_of_neg (by simp)
      | cons y ys ih =>
        rw [List.cons_append,
          List.takeWhile_cons_of_pos (by simp only [decide_eq_true_eq]; exact hL y (by simp))]
        rw [ih (fun x hx => hL x (by simp [hx]))]
    have htake : n.toList.reverse.takeWhile (fun c => decide (c ≠ '.')) = e.toList.reverse := by
      rw [hrev]
      exact htakeAux _ (fun x hx => he2 x (List.mem_reverse.mp hx))
    have hcond : 0 < (n.toList.reverse.takeWhile (fun c => decide (c ≠ '.'))).length ∧
        (n.toList.reverse.takeWhile (fun c => decide (c ≠ '.'))).length + 1 < n.toList.length := by
      rw [htake, List.length_reverse]
      constructor
      · exact List.length_pos.mpr he1
      · have h1 := congrArg List.length hn
        rw [List.length_append, List.length_cons] at h1
        have h2 : 0 < m.length := List.length_pos.mpr hm
        omega
    rw [if_pos hcond, htake]
    cases e
    simp [String.toList]

/-- Claim C5 (counterexample): a matching file nested one level deeper
inside a `_unlinked_files` batch directory IS selected by the diff —
only the immediate parent is tested — so the diff can contain a path
lying inside a `_unlinked_files*` directory. -/
theorem C5_counterexample :
    ["r", "_unlinked_files", "sub", "f.pdf"] ∈
        unlinkedFiles ["r"] ["pdf"] []
          { files := [["r", "_unlinked_files", "sub", "f.pdf"]],
            dirs := [["r"], ["r", "_unlinked_files"], ["r", "_unlinked_files", "sub"]],
            recs := [] } ∧
      strictUnder ["r", "_unlinked_files"] ["r", "_unlinked_files", "sub", "f.pdf"] := by
  constructor
  · rw [mem_unlinkedFiles, mem_candidateFiles]
    exact ⟨⟨by decide, by decide, by decide, by decide⟩, by decide⟩
  · decide

/-- Claim C5 (amended): the inventory diff never contains a file whose
*immediate parent* directory name starts with `_unlinked_files`, and
never contains `root ++ p` for a linked path `p`. -/
theorem C5_diff_immediate_parent_and_linked (root : FsPath) (file_types : List String)
    (linked : List FsPath) (s : FS) (p : FsPath)
    (hp : p ∈ unlinkedFiles root file_types linked s) :
    pyStartsWith (nameOf (parentPath p)) "_unlinked_files" = false ∧
      p ∉ linked.map (fun q => root ++ q) := by
  rw [mem_unlinkedFiles, mem_candidateFiles] at hp
  exact ⟨hp.1.2.2.2, hp.2⟩

theorem C5_diff_immediate_parent_and_linked_witness :
    (pyStartsWith "sub" "_unlinked_files" = false ∧
      ["r", "sub", "g.pdf"] ∉ ([["a.pdf"]] : List FsPath).map (fun q => ["r"] ++ q)) :=
  C5_diff_immediate_parent_and_linked ["r"] ["pdf"] [["a.pdf"]]
    { files := [["r", "sub", "g.pdf"]], dirs := [["r"], ["r", "sub"]], recs := [] }
    ["r", "sub", "g.pdf"]
    (by rw [mem_unlinkedFiles, mem_candidateFiles]; exact ⟨⟨by decide, by decide, by decide, by decide⟩, by decide⟩)

/-- Claim C6 (counterexample): extension matching is case-sensitive —
`b.PDF` is NOT selected for the filter `{"pdf"}` although its extension
differs from the filter entry only by letter case, contradicting the
claimed case-normalisation. -/
theorem C6_counterexample :
    ["r", "b.PDF"] ∉
      candidateFiles ["r"] ["pdf"]
        { files := [["r", "b.PDF"]], dirs := [["r"]], recs := [] } := by
  rw [mem_candidateFiles]
  intro h
  exact absurd h.2.2.1 (by decide)

/-- Claim C6 (amended): for a dot-free nonempty filter, a file under the
root is selected as a reconciliation candidate iff its name is
`<nonempty stem>.<e>` for some filter entry `e` — matched verbatim,
case-sensitively — and its immediate parent directory name does not
start with `_unlinked_files`. -/
theorem C6_candidate_iff_case_sensitive (root : FsPath) (file_types : List String)
    (s : FS) (p : FsPath)
    (hft : ∀ e ∈ file_types, e.toList ≠ [] ∧ ∀ c ∈ e.toList, c ≠ '.') :
    p ∈ candidateFiles root file_types s ↔
      p ∈ s.files ∧ strictUnder root p ∧
        (∃ e ∈ file_types, ∃ m, m ≠ [] ∧ (nameOf p).toList = m ++ '.' :: e.toList) ∧
        pyStartsWith (nameOf (parentPath p)) "_unlinked_files" = false := by
  rw [mem_candidateFiles]
  constructor
  · rintro ⟨h1, h2, h3, h4⟩
    refine ⟨h1, h2, ⟨pySuffixStripped (nameOf p), h3, ?_⟩, h4⟩
    exact (pySuffixStripped_eq_iff (hft _ h3).1 (hft _ h3).2).mp rfl
  · rintro ⟨h1, h2, ⟨e, he, m, hm, heq⟩, h4⟩
    refine ⟨h1, h2, ?_, h4⟩
    have : pySuffixStripped (nameOf p) = e :=
      (pySuffixStripped_eq_iff (hft _ he).1 (hft _ he).2).mpr ⟨m, hm, heq⟩
    rw [this]
    exact he

theorem C6_candidate_iff_case_sensitive_witness :
    ["r", "a.pdf"] ∈ candidateFiles ["r"] ["pdf"]
      { files := [["r", "a.pdf"]], dirs := [["r"]], recs := [] } :=
  (C6_candidate_iff_case_sensitive ["r"] ["pdf"]
      { files := [["r", "a.pdf"]], dirs := [["r"]], recs := [] } ["r", "a.pdf"]
      (by decide)).mpr
    ⟨by decide, by decide, ⟨"pdf", by decide, ['a'], by decide, by decide⟩, by decide⟩

/-! ### Record merging (claim C2) -/

theorem recLookup_cons (a : FsPath × FsPath) (m : Record) (k : FsPath) :
    recLookup (a :: m) k = if a.1 = k then some a.2 else recLookup m k := by
  unfold recLookup
  rw [List.find?_cons]
  by_cases h : a.1 = k
  · simp [h]
  · simp [h]

theorem recLookup_eq_none (m : Record) (k : FsPath) (h : k ∉ m.map Prod.fst) :
    recLookup m k = none := by
  induction m with
  | nil => rfl
  | cons a tl ih =>
    rw [recLookup_cons, if_neg, ih]
    · intro hm
      exact h (by simp [hm])
    · intro ha
      exact h (by simp [ha])

theorem recLookup_replace_self (m : Record) (k v : FsPath) (hk : k ∈ m.map Prod.fst) :
    recLookup (m.map (fun kv => if kv.1 = k then (k, v) else kv)) k = some v := by
  induction m with
  | nil => simp at hk
  | cons a tl ih =>
    rw [List.map_cons]
    by_cases ha : a.1 = k
    · rw [if_pos ha, recLookup_cons, if_pos rfl]
    · rw [if_neg ha, recLookup_cons, if_neg ha]
      refine ih ?_
      rcases List.mem_map.mp hk with ⟨kv, hkv, hfst⟩
      rcases List.mem_cons.mp hkv with rfl | hkv'
      · exact absurd hfst ha
      · exact List.mem_map.mpr ⟨kv, hkv', hfst⟩

theorem recLookup_replace_ne (m : Record) (k v k' : FsPath) (h : k' ≠ k) :
    recLookup (m.map (fun kv => if kv.1 = k then (k, v) else kv)) k' = recLookup m k' := by
  induction m with
  | nil => rfl
  | cons a tl ih =>
    rw [List.map_cons]
    by_cases ha : a.1 = k
    · rw [if_pos ha, recLookup_cons, recLookup_cons, if_neg (fun hh => h hh.symm),
        if_neg (fun hh => h (by rw [← hh, ha]))]
      exact ih
    · rw [if_neg ha, recLookup_cons, recLookup_cons]
      by_cases ha' : a.1 = k'
      · rw [if_pos ha', if_pos ha']
      · rw [if_neg ha', if_neg ha']
        exact ih

theorem recLookup_append_single (m : Record) (k v k' : FsPath) :
    recLookup (m ++ [(k, v)]) k' =
      match recLookup m k' with
      | some w => some w
      | none => if k = k' then some v else none := by
  induction m with
  | nil =>
    rw [List.nil_append, recLookup_cons,
      show recLookup ([] : Record) k' = none from rfl]
  | cons a tl ih =>
    rw [List.cons_append, recLookup_cons, recLookup_cons]
    by_cases h : a.1 = k'
    · rw [if_pos h, if_pos h]
    · rw [if_neg h, if_neg h, ih]

theorem recLookup_dictInsert (m : Record) (k v k' : FsPath) :
    recLookup (dictInsert m k v) k' = if k' = k then some v else recLookup m k' := by
  unfold dictInsert
  by_cases hk : k ∈ m.map Prod.fst
  · rw [if_pos hk]
    by_cases h : k' = k
    · subst h
      rw [if_pos rfl]
      exact recLookup_replace_self m k' v hk
    · rw [if_neg h]
      exact recLookup_replace_ne m k v k' h
  · rw [if_neg hk, recLookup_append_single]
    by_cases h : k' = k
    · subst h
      rw [if_pos rfl, recLookup_eq_none m k' hk, if_pos rfl]
    · rw [if_neg h]
      cases h3 : recLookup m k'
      · rw [if_neg (fun hh => h hh.symm)]
      · rfl

theorem keys_dictInsert_mem (m : Record) (k v : FsPath) (h : k ∈ m.map Prod.fst) :
    (dictInsert m k v).map Prod.fst = m.map Prod.fst := by
  unfold dictInsert
  rw [if_pos h, List.map_map]
  apply List.map_congr_left
  intro kv _
  by_cases hkv : kv.1 = k
  · simp [hkv]
  · simp [hkv]

theorem keys_dictInsert_not_mem (m : Record) (k v : FsPath) (h : k ∉ m.map Prod.fst) :
    (dictInsert m k v).map Prod.fst = m.map Prod.fst ++ [k] := by
  unfold dictInsert
  rw [if_neg h, List.map_append]
  rfl

theorem nodup_keys_dictInsert (m : Record) (k v : FsPath)
    (h : (m.map Prod.fst).Nodup) : ((dictInsert m k v).map Prod.fst).Nodup := by
  by_cases hk : k ∈ m.map Prod.fst
  · rw [keys_dictInsert_mem m k v hk]
    exact h
  · rw [keys_dictInsert_not_mem m k v hk]
    simp [List.nodup_append, h, hk]

/-- `dict(old, **new)` looked up: the new record's binding wins whenever
the key is bound there, otherwise the old record's binding stands. -/
theorem recLookup_dictMerge (old new : Record) (hnd : (new.map Prod.fst).Nodup)
    (k : FsPath) :
    recLookup (dictMerge old new) k =
      match recLookup new k with
      | some v => some v
      | none => recLookup old k := by
  induction new generalizing old with
  | nil => rfl
  | cons a tl ih =>
    obtain ⟨k0, v0⟩ := a
    rw [List.map_cons] at hnd
    have h1 : k0 ∉ tl.map Prod.fst := (List.nodup_cons.mp hnd).1
    have h2 := (List.nodup_cons.mp hnd).2
    have hstep : dictMerge old ((k0, v0) :: tl) = dictMerge (dictInsert old k0 v0) tl := rfl
    rw [hstep, ih _ h2, recLookup_cons]
    by_cases hk : k0 = k
    · subst hk
      rw [if_pos rfl, recLookup_eq_none tl k0 h1]
      show recLookup (dictInsert old k0 v0) k0 = some v0
      rw [recLookup_dictInsert, if_pos rfl]
    · rw [if_neg hk]
      cases h3 : recLookup tl k
      · show recLookup (dictInsert old k0 v0) k = recLookup old k
        rw [recLookup_dictInsert, if_neg (fun hh => hk hh.symm)]
      · rfl

theorem recsGet_writeRec (s : FS) (p : FsPath) (m : Record) :
    recsGet (writeRec s p m) p = m := by
  unfold recsGet writeRec
  simp [List.find?_cons]

theorem recsGet_congr {s₁ s₂ : FS} (h : s₁.recs = s₂.recs) (p : FsPath) :
    recsGet s₁ p = recsGet s₂ p := by
  unfold recsGet
  rw [h]

theorem relocateMoves_recs (rd : FsPath) :
    ∀ (l : List FsPath) (m : Record) (s : FS), (relocateMoves rd l m s).2.recs = s.recs := by
  intro l
  induction l with
  | nil => intro m s; rfl
  | cons p rest ih =>
    intro m s
    show (relocateMoves rd rest _ (renameF s p (rd ++ [nameOf p]))).2.recs = s.recs
    rw [ih]
    rfl

theorem relocateMoves_files_keep (rd : FsPath) :
    ∀ (l : List FsPath) (m : Record) (s : FS) (f : FsPath),
      f ∈ s.files → f ∉ l → f ∈ (relocateMoves rd l m s).2.files := by
  intro l
  induction l with
  | nil => intro m s f hf _; exact hf
  | cons p rest ih =>
    intro m s f hf hnl
    refine ih _ _ f ?_ (fun h => hnl (List.mem_cons_of_mem _ h))
    show f ∈ insertP (eraseAllP s.files p) (rd ++ [nameOf p])
    rw [mem_insertP]
    exact Or.inl (mem_eraseAllP.mpr ⟨hf, fun h => hnl (h ▸ List.mem_cons_self p rest)⟩)

theorem relocateMoves_keys_nodup (rd : FsPath) :
    ∀ (l : List FsPath) (m : Record) (s : FS), (m.map Prod.fst).Nodup →
      ((relocateMoves rd l m s).1.map Prod.fst).Nodup := by
  intro l
  induction l with
  | nil => intro m s h; exact h
  | cons p rest ih =>
    intro m s h
    exact ih _ _ (nodup_keys_dictInsert _ _ _ h)

theorem getLastD_concat_str : ∀ (l : List String) (a d : String), (l ++ [a]).getLastD d = a := by
  intro l
  induction l with
  | nil => intro a d; rfl
  | cons x xs ih =>
    intro a d
    rw [List.cons_append, List.getLastD_cons]
    exact ih a x

theorem nameOf_concat (l : FsPath) (a : String) : nameOf (l ++ [a]) = a :=
  getLastD_concat_str l a ""

theorem parentPath_concat (l : FsPath) (a : String) : parentPath (l ++ [a]) = l :=
  List.dropLast_concat

theorem relocationDirName_prefixed (foldername_suffix : Option String) :
    pyStartsWith (relocationDirName foldername_suffix) "_unlinked_files" = true := by
  cases foldername_suffix with
  | none => decide
  | some x =>
    unfold relocationDirName pyStartsWith
    rw [List.isPrefixOf_iff_prefix]
    refine ⟨'_' :: x.toList, ?_⟩
    have h1 : ("_unlinked_files_" ++ x).toList = "_unlinked_files_".toList ++ x.toList :=
      String.data_append _ _
    have h2 : ("_unlinked_files_").toList = "_unlinked_files".toList ++ ['_'] := by decide
    rw [h1, h2, List.append_assoc]
    rfl

/-- The record file of a batch is never itself selected as an unlinked
file (its immediate parent is the batch directory). -/
theorem recordFile_not_unlinked (root : FsPath) (file_types : List String)
    (linked : List FsPath) (s : FS) (foldername_suffix : Option String) :
    root ++ [relocationDirName foldername_suffix] ++ ["_relocation_map.json"] ∉
      unlinkedFiles root file_types linked s := by
  intro h
  rw [mem_unlinkedFiles, mem_candidateFiles] at h
  have h4 := h.1.2.2.2
  rw [parentPath_concat, nameOf_concat, relocationDirName_prefixed] at h4
  exact absurd h4 (by simp)

/-- Claim C2 (counterexample): the batch `_unlinked_files` already holds
a record mapping the quarantined path `x.pdf` to `r/a/x.pdf`; a new pass
relocates `r/b/x.pdf` onto the same quarantined path, and the record
written to disk points the colliding key at the NEW pass's original
`r/b/x.pdf` — the pre-existing entry is overwritten, not kept. -/
theorem C2_counterexample :
    ∃ s' : FS,
      relocate_unlinked_files false ["r"] ["pdf"] [] none none
          { files := [["r", "_unlinked_files", "_relocation_map.json"],
                      ["r", "_unlinked_files", "x.pdf"], ["r", "b", "x.pdf"]],
            dirs := [["r"], ["r", "_unlinked_files"], ["r", "b"]],
            recs := [(["r", "_unlinked_files", "_relocation_map.json"],
                      [(["r", "_unlinked_files", "x.pdf"], ["r", "a", "x.pdf"])])] } 30
        = .ok (some [(["r", "_unlinked_files", "x.pdf"], ["r", "b", "x.pdf"])],
               [(["r", "_unlinked_files", "x.pdf"], ["r", "b", "x.pdf"])], s') ∧
      recLookup (recsGet s' ["r", "_unlinked_files", "_relocation_map.json"])
          ["r", "_unlinked_files", "x.pdf"] = some ["r", "b", "x.pdf"] := by
  refine ⟨_, rfl, ?_⟩
  decide

/-- Claim C2 (amended): when the batch directory and its record file
pre-exist, the record written to disk by a pass that relocated at least
one file is `dict(existing, **new)`: its keys are the union of both
records' keys, and on every key collision the NEW pass's value wins —
the pre-existing entry is overwritten (first-writer-wins is false). -/
theorem C2_merge_new_entries_win (darwin : Bool) (root : FsPath)
    (file_types : List String) (linked : List FsPath)
    (foldername_suffix : Option String) (sess : Option Record) (s : FS) (fuel : Nat)
    (m : Record) (s' : FS)
    (hrd : root ++ [relocationDirName foldername_suffix] ∈ s.dirs)
    (hrf : root ++ [relocationDirName foldername_suffix] ++ ["_relocation_map.json"] ∈ s.files)
    (hrun : relocate_unlinked_files darwin root file_types linked foldername_suffix
      sess s fuel = .ok (some m, m, s'))
    (hm : m ≠ []) :
    recsGet s' (root ++ [relocationDirName foldername_suffix] ++ ["_relocation_map.json"]) =
        dictMerge (recsGet s (root ++ [relocationDirName foldername_suffix]
          ++ ["_relocation_map.json"])) m ∧
      (∀ k v, recLookup m k = some v →
        recLookup (recsGet s' (root ++ [relocationDirName foldername_suffix]
          ++ ["_relocation_map.json"])) k = some v) ∧
      (∀ k, recLookup m k = none →
        recLookup (recsGet s' (root ++ [relocationDirName foldername_suffix]
          ++ ["_relocation_map.json"])) k =
        recLookup (recsGet s (root ++ [relocationDirName foldername_suffix]
          ++ ["_relocation_map.json"])) k) := by
  simp only [relocate_unlinked_files] at hrun
  rw [if_pos hrd, Res.bind_ok] at hrun
  set rd := root ++ [relocationDirName foldername_suffix] with hrddef
  set rf := rd ++ ["_relocation_map.json"] with hrfdef
  set ms := relocateMoves rd (unlinkedFiles root file_types linked s) [] s with hmsdef
  by_cases hms : ms.1 = []
  · rw [if_pos hms, Res.bind_eq_ok] at hrun
    obtain ⟨s3, _, hrun⟩ := hrun
    rw [Res.bind_eq_ok] at hrun
    obtain ⟨s4, _, hrun⟩ := hrun
    simp only [Res.ok.injEq, Prod.mk.injEq] at hrun
    exact absurd hrun.2.1.symm hm
  · rw [if_neg hms] at hrun
    have hrfmem : rf ∈ ms.2.files := by
      rw [hmsdef]
      exact relocateMoves_files_keep rd _ [] s rf hrf
        (recordFile_not_unlinked root file_types linked s foldername_suffix)
    rw [if_pos hrfmem, Res.bind_eq_ok] at hrun
    obtain ⟨s4, hprune, heq⟩ := hrun
    simp only [Res.ok.injEq, Prod.mk.injEq] at heq
    obtain ⟨hm1, hm2, hs4⟩ := heq
    rw [hs4] at hprune
    have hrecs' := (remove_empty_directories_shape darwin root fuel root _ _ hprune).1
    have hget : recsGet s' rf = dictMerge (recsGet s rf) m := by
      rw [recsGet_congr hrecs' rf, recsGet_writeRec]
      have e2 : recsGet ms.2 rf = recsGet s rf :=
        recsGet_congr (by rw [hmsdef, relocateMoves_recs]) rf
      rw [e2, hm2]
    have hnd : (m.map Prod.fst).Nodup := by
      rw [← hm2, hmsdef]
      exact relocateMoves_keys_nodup rd _ [] s (by simp)
    refine ⟨hget, ?_, ?_⟩
    · intro k v hk
      rw [hget, recLookup_dictMerge _ _ hnd, hk]
    · intro k hk
      rw [hget, recLookup_dictMerge _ _ hnd, hk]

theorem C2_merge_new_entries_win_witness :
    recsGet
        { files := [["r", "_unlinked_files", "_relocation_map.json"],
                    ["r", "_unlinked_files", "x.pdf"]],
          dirs := [["r"], ["r", "_unlinked_files"]],
          recs := [(["r", "_unlinked_files", "_relocation_map.json"],
                    [(["r", "_unlinked_files", "x.pdf"], ["r", "b", "x.pdf"])])] }
        (["r"] ++ [relocationDirName none] ++ ["_relocation_map.json"]) =
      dictMerge
        (recsGet
          { files := [["r", "_unlinked_files", "_relocation_map.json"],
                      ["r", "_unlinked_files", "x.pdf"], ["r", "b", "x.pdf"]],
            dirs := [["r"], ["r", "_unlinked_files"], ["r", "b"]],
            recs := [(["r", "_unlinked_files", "_relocation_map.json"],
                      [(["r", "_unlinked_files", "x.pdf"], ["r", "a", "x.pdf"])])] }
          (["r"] ++ [relocationDirName none] ++ ["_relocation_map.json"]))
        [(["r", "_unlinked_files", "x.pdf"], ["r", "b", "x.pdf"])] ∧
      (∀ k v, recLookup [(["r", "_unlinked_files", "x.pdf"], ["r", "b", "x.pdf"])] k = some v →
        recLookup (recsGet
          { files := [["r", "_unlinked_files", "_relocation_map.json"],
                      ["r", "_unlinked_files", "x.pdf"]],
            dirs := [["r"], ["r", "_unlinked_files"]],
            recs := [(["r", "_unlinked_files", "_relocation_map.json"],
                      [(["r", "_unlinked_files", "x.pdf"], ["r", "b", "x.pdf"])])] }
          (["r"] ++ [relocationDirName none] ++ ["_relocation_map.json"])) k = some v) ∧
      (∀ k, recLookup [(["r", "_unlinked_files", "x.pdf"], ["r", "b", "x.pdf"])] k = none →
        recLookup (recsGet
          { files := [["r", "_unlinked_files", "_relocation_map.json"],
                      ["r", "_unlinked_files", "x.pdf"]],
            dirs := [["r"], ["r", "_unlinked_files"]],
            recs := [(["r", "_unlinked_files", "_relocation_map.json"],
                      [(["r", "_unlinked_files", "x.pdf"], ["r", "b", "x.pdf"])])] }
          (["r"] ++ [relocationDirName none] ++ ["_relocation_map.json"])) k =
        recLookup (recsGet
          { files := [["r", "_unlinked_files", "_relocation_map.json"],
                      ["r", "_unlinked_files", "x.pdf"], ["r", "b", "x.pdf"]],
            dirs := [["r"], ["r", "_unlinked_files"], ["r", "b"]],
            recs := [(["r", "_unlinked_files", "_relocation_map.json"],
                      [(["r", "_unlinked_files", "x.pdf"], ["r", "a", "x.pdf"])])] }
          (["r"] ++ [relocationDirName none] ++ ["_relocation_map.json"])) k) :=
  C2_merge_new_entries_win false ["r"] ["pdf"] [] none none
    { files := [["r", "_unlinked_files", "_relocation_map.json"],
                ["r", "_unlinked_files", "x.pdf"], ["r", "b", "x.pdf"]],
      dirs := [["r"], ["r", "_unlinked_files"], ["r", "b"]],
      recs := [(["r", "_unlinked_files", "_relocation_map.json"],
                [(["r", "_unlinked_files", "x.pdf"], ["r", "a", "x.pdf"])])] } 30
    [(["r", "_unlinked_files", "x.pdf"], ["r", "b", "x.pdf"])]
    { files := [["r", "_unlinked_files", "_relocation_map.json"],
                ["r", "_unlinked_files", "x.pdf"]],
      dirs := [["r"], ["r", "_unlinked_files"]],
      recs := [(["r", "_unlinked_files", "_relocation_map.json"],
                [(["r", "_unlinked_files", "x.pdf"], ["r", "b", "x.pdf"])])] }
    (by decide) (by decide) rfl (by decide)

/-! ### Basename collisions during relocation (claim C3) -/

theorem relocateMoves_files_new (rd : FsPath) :
    ∀ (l : List FsPath) (m : Record) (s : FS) (f : FsPath),
      f ∈ (relocateMoves rd l m s).2.files →
      f ∈ s.files ∨ ∃ q ∈ l, f = rd ++ [nameOf q] := by
  intro l
  induction l with
  | nil => intro m s f hf; exact Or.inl hf
  | cons q rest ih =>
    intro m s f hf
    rcases ih _ _ f hf with h | ⟨q', hq', hfq⟩
    · have h2 : f ∈ insertP (eraseAllP s.files q) (rd ++ [nameOf q]) := h
      rw [mem_insertP] at h2
      rcases h2 with h2 | h2
      · exact Or.inl (mem_eraseAllP.mp h2).1
      · exact Or.inr ⟨q, List.mem_cons_self q rest, h2⟩
    · exact Or.inr ⟨q', List.mem_cons_of_mem _ hq', hfq⟩

theorem relocateMoves_source_gone (rd : FsPath) :
    ∀ (l : List FsPath) (m : Record) (s : FS) (p : FsPath),
      p ∈ l → l.Nodup → parentPath p ≠ rd →
      p ∉ (relocateMoves rd l m s).2.files := by
  intro l
  induction l with
  | nil => intro m s p hp; exact absurd hp (List.not_mem_nil p)
  | cons q rest ih =>
    intro m s p hp hnd hpar hmem
    rcases List.mem_cons.mp hp with rfl | hp'
    · rcases relocateMoves_files_new rd rest _ _ p hmem with h | ⟨q', hq', hfq⟩
      · have h2 : p ∈ insertP (eraseAllP s.files p) (rd ++ [nameOf p]) := h
        rw [mem_insertP] at h2
        rcases h2 with h2 | h2
        · exact (mem_eraseAllP.mp h2).2 rfl
        · exact hpar (by rw [h2, parentPath_concat])
      · exact hpar (by rw [hfq, parentPath_concat])
    · exact ih _ _ p hp' (List.nodup_cons.mp hnd).2 hpar hmem

theorem relocateMoves_ne_nil (rd : FsPath) :
    ∀ (l : List FsPath) (m : Record) (s : FS), l ≠ [] ∨ m ≠ [] →
      (relocateMoves rd l m s).1 ≠ [] := by
  intro l
  induction l with
  | nil =>
    intro m s h
    rcases h with h | h
    · exact absurd rfl h
    · exact h
  | cons q rest ih =>
    intro m s _
    refine ih _ _ (Or.inr ?_)
    unfold dictInsert
    split
    · intro h0
      rename_i hmem
      rw [List.map_eq_nil_iff] at h0
      rw [h0] at hmem
      simp at hmem
    · simp

theorem relocateMoves_lookup_after (rd : FsPath) :
    ∀ (l : List FsPath) (m : Record) (s : FS) (n : String),
      (∀ q ∈ l, nameOf q ≠ n) →
      recLookup (relocateMoves rd l m s).1 (rd ++ [n]) = recLookup m (rd ++ [n]) := by
  intro l
  induction l with
  | nil => intro m s n _; rfl
  | cons q rest ih =>
    intro m s n hn
    show recLookup (relocateMoves rd rest (dictInsert m (rd ++ [nameOf q]) q)
      (renameF s q (rd ++ [nameOf q]))).1 (rd ++ [n]) = _
    rw [ih _ _ n (fun q' hq' => hn q' (List.mem_cons_of_mem _ hq'))]
    rw [recLookup_dictInsert]
    rw [if_neg]
    intro heq
    have := List.append_cancel_left heq
    simp at this
    exact hn q (List.mem_cons_self q rest) this.symm

theorem relocateMoves_lookup_last (rd : FsPath) :
    ∀ (l₄ l₃ : List FsPath) (m : Record) (s : FS) (p' : FsPath),
      (∀ q ∈ l₃, nameOf q ≠ nameOf p') →
      recLookup (relocateMoves rd (l₄ ++ p' :: l₃) m s).1 (rd ++ [nameOf p']) = some p' := by
  intro l₄
  induction l₄ with
  | nil =>
    intro l₃ m s p' hlast
    rw [List.nil_append]
    show recLookup (relocateMoves rd l₃ (dictInsert m (rd ++ [nameOf p']) p') _).1 _ = _
    rw [relocateMoves_lookup_after rd l₃ _ _ _ hlast, recLookup_dictInsert, if_pos rfl]
  | cons q l₄ ih =>
    intro l₃ m s p' hlast
    rw [List.cons_append]
    exact ih l₃ _ _ p' hlast

/-- Claim C3 (counterexample): two unlinked files `r/a/x.pdf` and
`r/b/x.pdf` share the basename `x.pdf`; `relocate_unlinked_files`
completes WITHOUT an error, the quarantined copy of `r/a/x.pdf` is
silently overwritten (the file exists nowhere in the resulting tree),
and the record keeps only the later file's original path. -/
theorem C3_counterexample :
    relocate_unlinked_files false ["r"] ["pdf"] [] none none
        { files := [["r", "a", "x.pdf"], ["r", "b", "x.pdf"]],
          dirs := [["r"], ["r", "a"], ["r", "b"]], recs := [] } 30
      = .ok (some [(["r", "_unlinked_files", "x.pdf"], ["r", "b", "x.pdf"])],
             [(["r", "_unlinked_files", "x.pdf"], ["r", "b", "x.pdf"])],
             { files := [["r", "_unlinked_files", "_relocation_map.json"],
                         ["r", "_unlinked_files", "x.pdf"]],
               dirs := [["r", "_unlinked_files"], ["r"]],
               recs := [(["r", "_unlinked_files", "_relocation_map.json"],
                         [(["r", "_unlinked_files", "x.pdf"], ["r", "b", "x.pdf"])])] }) ∧
      ∀ f ∈ [["r", "_unlinked_files", "_relocation_map.json"],
             ["r", "_unlinked_files", "x.pdf"]], f ≠ ["r", "a", "x.pdf"] := by
  exact ⟨rfl, by decide⟩

/-- Claim C3 (amended): on a basename collision among the unlinked files
the pass does NOT raise: it completes, the shared quarantined path is
recorded as mapping to the LAST processed colliding file, and every
earlier colliding file no longer exists anywhere in the resulting tree
(silent data loss). -/
theorem C3_basename_collision_silent_overwrite (darwin : Bool) (root : FsPath)
    (file_types : List String) (linked : List FsPath)
    (foldername_suffix : Option String) (sess : Option Record) (s : FS) (fuel : Nat)
    (m : Record) (s' : FS) (p p' : FsPath) (l₁ l₂ l₃ : List FsPath)
    (hu : unlinkedFiles root file_types linked s = l₁ ++ p :: (l₂ ++ p' :: l₃))
    (hname : nameOf p = nameOf p')
    (hlast : ∀ q ∈ l₃, nameOf q ≠ nameOf p')
    (hnod : (unlinkedFiles root file_types linked s).Nodup)
    (hrun : relocate_unlinked_files darwin root file_types linked foldername_suffix
      sess s fuel = .ok (some m, m, s')) :
    p ≠ p' ∧
      recLookup m (root ++ [relocationDirName foldername_suffix] ++ [nameOf p]) = some p' ∧
      p ∉ s'.files := by
  simp only [relocate_unlinked_files] at hrun
  set rd := root ++ [relocationDirName foldername_suffix] with hrddef
  have hpmem : p ∈ unlinkedFiles root file_types linked s := by
    rw [hu]
    exact List.mem_append_right _ (List.mem_cons_self _ _)
  have hppar : parentPath p ≠ rd := by
    intro hpar
    have hc := (mem_candidateFiles.mp (mem_unlinkedFiles.mp hpmem).1).2.2.2
    rw [hpar, hrddef, nameOf_concat, relocationDirName_prefixed] at hc
    exact absurd hc (by simp)
  have hpne : p ≠ p' := by
    intro h
    subst h
    rw [hu] at hnod
    have h1 := (List.nodup_append.mp hnod).2.1
    rw [List.nodup_cons] at h1
    exact h1.1 (List.mem_append_right _ (List.mem_cons_self _ _))
  rw [Res.bind_eq_ok] at hrun
  obtain ⟨s1, hs1, hrun⟩ := hrun
  have hs1s : s1.files = s.files ∧ s1.recs = s.recs := by
    by_cases hrd : rd ∈ s.dirs
    · rw [if_pos hrd] at hs1
      cases hs1
      exact ⟨rfl, rfl⟩
    · rw [if_neg hrd] at hs1
      unfold mkdirF at hs1
      by_cases h1 : rd ∈ s.files ∨ rd ∈ s.dirs
      · rw [if_pos h1] at hs1
        exact absurd hs1 (by simp)
      · rw [if_neg h1] at hs1
        by_cases h2 : parentPath rd ∈ s.dirs
        · rw [if_pos h2] at hs1
          cases hs1
          exact ⟨rfl, rfl⟩
        · rw [if_neg h2] at hs1
          exact absurd hs1 (by simp)
  have hufl : unlinkedFiles root file_types linked s1 =
      unlinkedFiles root file_types linked s := by
    unfold unlinkedFiles candidateFiles
    rw [hs1s.1]
  rw [hufl, hu] at hrun
  by_cases hms : (relocateMoves rd (l₁ ++ p :: (l₂ ++ p' :: l₃)) [] s1).1 = []
  · exact absurd hms (relocateMoves_ne_nil rd _ [] s1 (Or.inl (by simp)))
  · rw [if_neg hms, Res.bind_eq_ok] at hrun
    obtain ⟨s4, hprune, heq⟩ := hrun
    simp only [Res.ok.injEq, Prod.mk.injEq] at heq
    obtain ⟨hm1, hm2, hs4⟩ := heq
    refine ⟨hpne, ?_, ?_⟩
    · rw [← hm2, hname]
      have : l₁ ++ p :: (l₂ ++ p' :: l₃) = (l₁ ++ p :: l₂) ++ p' :: l₃ := by simp
      rw [this]
      exact relocateMoves_lookup_last rd _ l₃ [] s1 p' hlast
    · rw [← hs4]
      intro hmem
      have hsub := (remove_empty_directories_shape darwin root fuel root _ s4 hprune).2.1
      have h5 := hsub p hmem
      have h6 : p ∈ insertP (relocateMoves rd (l₁ ++ p :: (l₂ ++ p' :: l₃)) [] s1).2.files
          (rd ++ ["_relocation_map.json"]) := h5
      rw [mem_insertP] at h6
      rcases h6 with h6 | h6
      · refine relocateMoves_source_gone rd _ [] s1 p ?_ ?_ hppar h6
        · exact List.mem_append_right _ (List.mem_cons_self _ _)
        · rw [← hu]
          exact hnod
      · exact hppar (by rw [h6, parentPath_concat])

theorem C3_basename_collision_silent_overwrite_witness :
    ["r", "a", "x.pdf"] ≠ ["r", "b", "x.pdf"] ∧
      recLookup [(["r", "_unlinked_files", "x.pdf"], ["r", "b", "x.pdf"])]
        (["r"] ++ [relocationDirName none] ++ [nameOf ["r", "a", "x.pdf"]]) =
        some ["r", "b", "x.pdf"] ∧
      ["r", "a", "x.pdf"] ∉
        ({ files := [["r", "_unlinked_files", "_relocation_map.json"],
                     ["r", "_unlinked_files", "x.pdf"]],
           dirs := [["r", "_unlinked_files"], ["r"]],
           recs := [(["r", "_unlinked_files", "_relocation_map.json"],
                     [(["r", "_unlinked_files", "x.pdf"], ["r", "b", "x.pdf"])])] } : FS).files :=
  C3_basename_collision_silent_overwrite false ["r"] ["pdf"] [] none none
    { files := [["r", "a", "x.pdf"], ["r", "b", "x.pdf"]],
      dirs := [["r"], ["r", "a"], ["r", "b"]], recs := [] } 30
    [(["r", "_unlinked_files", "x.pdf"], ["r", "b", "x.pdf"])]
    { files := [["r", "_unlinked_files", "_relocation_map.json"],
                ["r", "_unlinked_files", "x.pdf"]],
      dirs := [["r", "_unlinked_files"], ["r"]],
      recs := [(["r", "_unlinked_files", "_relocation_map.json"],
                [(["r", "_unlinked_files", "x.pdf"], ["r", "b", "x.pdf"])])] }
    ["r", "a", "x.pdf"] ["r", "b", "x.pdf"] [] [] []
    (by decide) (by decide) (by decide) (by decide) rfl

/-! ### Empty passes (claims C4 and C10) -/

/-- The executable well-formedness check is sound. -/
theorem Wf_of_WfB {root : FsPath} {s : FS} (h : WfB root s = true) : Wf root s := by
  unfold WfB at h
  simp only [Bool.and_eq_true, decide_eq_true_eq, List.all_eq_true] at h
  obtain ⟨⟨⟨⟨⟨h1, h2⟩, h3⟩, h4⟩, h5⟩, h6⟩ := h
  refine { root_dir := h1, root_ne := h2, nodupFiles := h3, nodupDirs := h4,
           disj := ?_, parentsClosed := ?_ }
  · intro p hp
    exact h5 p hp
  · intro p hp q hqne hqp hqnep
    unfold parentsClosedB at h6
    simp only [List.all_eq_true] at h6
    have hpm : p ∈ s.files ++ s.dirs := by
      rw [List.mem_append]
      exact hp
    have hql : q.length < p.length := by
      have hle := hqp.length_le
      rcases Nat.lt_or_ge q.length p.length with h7 | h7
      · exact h7
      · exact absurd (List.IsPrefix.eq_of_length hqp (Nat.le_antisymm hle h7)) hqnep
    have hk := h6 p hpm q.length (List.mem_range.mpr hql)
    have hq0 : (q.length == 0) = false := by
      simp only [beq_eq_false_iff_ne, ne_eq]
      intro h8
      exact hqne (List.length_eq_zero.mp h8)
    rw [hq0, Bool.false_or, decide_eq_true_eq] at hk
    rw [List.prefix_iff_eq_take.mp hqp]
    exact hk

theorem mkdirStep_ok {s s1 : FS} {rd : FsPath}
    (h : (if rd ∈ s.dirs then Res.ok s else mkdirF s rd) = .ok s1) :
    s1.files = s.files ∧ s1.recs = s.recs ∧ rd ∈ s1.dirs ∧
      (∀ d, d ∈ s.dirs → d ∈ s1.dirs) ∧ (∀ d, d ∈ s1.dirs → d ∈ s.dirs ∨ d = rd) ∧
      (rd ∈ s.dirs → s1 = s) ∧
      (rd ∉ s.dirs → rd ∉ s.files ∧ s1 = { s with dirs := insertP s.dirs rd }) := by
  by_cases hrd : rd ∈ s.dirs
  · rw [if_pos hrd] at h
    cases h
    exact ⟨rfl, rfl, hrd, fun _ hd => hd, fun d hd => Or.inl hd, fun _ => rfl,
      fun hc => absurd hrd hc⟩
  · rw [if_neg hrd] at h
    unfold mkdirF at h
    by_cases h1 : rd ∈ s.files ∨ rd ∈ s.dirs
    · rw [if_pos h1] at h
      exact absurd h (by simp)
    · rw [if_neg h1] at h
      by_cases h2 : parentPath rd ∈ s.dirs
      · rw [if_pos h2] at h
        cases h
        push_neg at h1
        refine ⟨rfl, rfl, ?_, ?_, ?_, fun hc => absurd hc hrd, fun _ => ⟨h1.1, rfl⟩⟩
        · show rd ∈ insertP s.dirs rd
          rw [mem_insertP]
          exact Or.inr rfl
        · intro d hd
          show d ∈ insertP s.dirs rd
          rw [mem_insertP]
          exact Or.inl hd
        · intro d hd
          have hd' : d ∈ insertP s.dirs rd := hd
          rw [mem_insertP] at hd'
          exact hd'
      · rw [if_neg h2] at h
        exact absurd h (by simp)

/-- Creating the batch directory `root ++ [name]` preserves
well-formedness. -/
theorem wf_mkdirStep {root : FsPath} {s s1 : FS} {name : String} (hw : Wf root s)
    (h : (if root ++ [name] ∈ s.dirs then Res.ok s else mkdirF s (root ++ [name]))
      = .ok s1) : Wf root s1 := by
  by_cases hrd : root ++ [name] ∈ s.dirs
  · rw [(mkdirStep_ok h).2.2.2.2.2.1 hrd]
    exact hw
  · obtain ⟨hnf, hs1⟩ := (mkdirStep_ok h).2.2.2.2.2.2 hrd
    rw [hs1]
    refine { root_dir := ?_, root_ne := hw.root_ne, nodupFiles := hw.nodupFiles,
             nodupDirs := nodup_insertP hw.nodupDirs, disj := ?_, parentsClosed := ?_ }
    · show root ∈ insertP s.dirs (root ++ [name])
      rw [mem_insertP]
      exact Or.inl hw.root_dir
    · intro p hp hmem
      have h2 : p ∈ insertP s.dirs (root ++ [name]) := hmem
      rw [mem_insertP] at h2
      rcases h2 with h2 | h2
      · exact hw.disj p hp h2
      · exact hnf (h2 ▸ hp)
    · intro p hp q hqne hqp hqnep
      show q ∈ insertP s.dirs (root ++ [name])
      rw [mem_insertP]
      left
      rcases hp with hp | hp
      · exact hw.parentsClosed p (Or.inl hp) q hqne hqp hqnep
      · have hp' : p ∈ insertP s.dirs (root ++ [name]) := hp
        rw [mem_insertP] at hp'
        rcases hp' with hp' | hp'
        · exact hw.parentsClosed p (Or.inr hp') q hqne hqp hqnep
        · subst hp'
          rcases List.prefix_concat_iff.mp hqp with h3 | h3
          · exact absurd h3 hqnep
          · by_cases h4 : q = root
            · rw [h4]
              exact hw.root_dir
            · exact hw.parentsClosed root (Or.inr hw.root_dir) q hqne h3 h4

/-- Claim C10: a relocation pass that finds zero unlinked files leaves
the in-memory session map untouched, so a later this-session selection
still raises the no-session error when no earlier pass relocated
anything, and still returns the earlier non-empty pass's record
otherwise. -/
theorem C10_empty_pass_session_unchanged (darwin : Bool) (root : FsPath)
    (file_types : List String) (linked : List FsPath)
    (foldername_suffix : Option String) (sess sess' : Option Record) (s : FS)
    (fuel : Nat) (m : Record) (s' : FS)
    (hu : unlinkedFiles root file_types linked s = [])
    (hrun : relocate_unlinked_files darwin root file_types linked foldername_suffix
      sess s fuel = .ok (sess', m, s')) :
    sess' = sess ∧ m = [] ∧
      (sess = none → ∀ s₀ : FS, retrieveThisMaps sess' s₀ = .err .noSession s₀) ∧
      (∀ m₀, sess = some m₀ → ∀ s₀ : FS, retrieveThisMaps sess' s₀ = .ok [m₀]) := by
  simp only [relocate_unlinked_files] at hrun
  rw [Res.bind_eq_ok] at hrun
  obtain ⟨s1, hs1, hrun⟩ := hrun
  have hf1 := (mkdirStep_ok hs1).1
  have hufl : unlinkedFiles root file_types linked s1 = [] := by
    unfold unlinkedFiles candidateFiles
    unfold unlinkedFiles candidateFiles at hu
    rw [hf1]
    exact hu
  rw [hufl] at hrun
  rw [show relocateMoves (root ++ [relocationDirName foldername_suffix]) [] [] s1
    = ([], s1) from rfl] at hrun
  rw [if_pos rfl, Res.bind_eq_ok] at hrun
  obtain ⟨s3, _, hrun⟩ := hrun
  rw [Res.bind_eq_ok] at hrun
  obtain ⟨s4, _, hrun⟩ := hrun
  simp only [Res.ok.injEq, Prod.mk.injEq] at hrun
  obtain ⟨h1, h2, _⟩ := hrun
  refine ⟨h1.symm, h2.symm, ?_, ?_⟩
  · intro hnone s₀
    rw [h1.symm, hnone]
    rfl
  · intro m₀ hsome s₀
    rw [h1.symm, hsome]
    rfl

/-- Claim C4: a relocation pass that finds zero unlinked files returns
an empty record, and when the batch directory did not pre-exist, no
batch directory exists when the call returns (it is created and then
pruned away). -/
theorem C4_empty_pass_no_batch_dir (darwin : Bool) (root : FsPath)
    (file_types : List String) (linked : List FsPath)
    (foldername_suffix : Option String) (sess sess' : Option Record) (s : FS)
    (fuel : Nat) (m : Record) (s' : FS)
    (hw : Wf root s)
    (hds : darwin = true → noDSunder root s)
    (hu : unlinkedFiles root file_types linked s = [])
    (hrd0 : root ++ [relocationDirName foldername_suffix] ∉ s.dirs)
    (hrun : relocate_unlinked_files darwin root file_types linked foldername_suffix
      sess s fuel = .ok (sess', m, s')) :
    m = [] ∧ root ++ [relocationDirName foldername_suffix] ∉ s'.dirs := by
  simp only [relocate_unlinked_files] at hrun
  set rd := root ++ [relocationDirName foldername_suffix] with hrddef
  rw [Res.bind_eq_ok] at hrun
  obtain ⟨s1, hs1, hrun⟩ := hrun
  obtain ⟨hf1, hr1, hrd1, hdirsub, hdirsup, _, hfresh⟩ := mkdirStep_ok hs1
  obtain ⟨hrdnf, hs1eq⟩ := hfresh hrd0
  have hw1 : Wf root s1 := wf_mkdirStep hw hs1
  have hufl : unlinkedFiles root file_types linked s1 = [] := by
    unfold unlinkedFiles candidateFiles
    unfold unlinkedFiles candidateFiles at hu
    rw [hf1]
    exact hu
  rw [hufl] at hrun
  rw [show relocateMoves rd [] [] s1 = ([], s1) from rfl] at hrun
  rw [if_pos rfl, Res.bind_eq_ok] at hrun
  obtain ⟨s3, hpr1, hrun⟩ := hrun
  rw [Res.bind_eq_ok] at hrun
  obtain ⟨s4, hpr2, hrun⟩ := hrun
  simp only [Res.ok.injEq, Prod.mk.injEq] at hrun
  obtain ⟨h1, h2, h3⟩ := hrun
  refine ⟨h2.symm, ?_⟩
  -- no entry of `s` (hence of any later state) sits strictly below `rd`
  have hnounder : ∀ p, (p ∈ s.files ∨ p ∈ s.dirs) → ¬ strictUnder rd p := by
    intro p hp hsu
    rcases hsu with ⟨hpre, hne⟩
    exact hrd0 (hw.parentsClosed p hp rd (by rw [hrddef]; simp) hpre hne)
  -- well-formedness of s1 viewed from the batch directory as root
  have hwrd : Wf rd s1 :=
    { root_dir := hrd1, root_ne := by rw [hrddef]; simp, nodupFiles := hw1.nodupFiles,
      nodupDirs := hw1.nodupDirs, disj := hw1.disj,
      parentsClosed := hw1.parentsClosed }
  have hdsrd : darwin = true → noDSunder rd s1 := by
    intro hdw f hf hsu _
    rw [hf1] at hf
    exact hnounder f (Or.inl hf) hsu
  obtain ⟨inv1, hwrd3, _⟩ := remove_empty_directories_spec darwin rd fuel rd s1 s3
    hwrd hdsrd (List.prefix_refl rd) hpr1
  -- well-formedness of s3 from the real root
  have hw3 : Wf root s3 :=
    { root_dir := by
        by_cases hq : root ∈ s3.dirs
        · exact hq
        · exfalso
          have := inv1.removed_under root (hdirsub root hw.root_dir) hq
          have h5 := strictUnder_length this
          simp [hrddef] at h5
      root_ne := hw.root_ne, nodupFiles := hwrd3.nodupFiles,
      nodupDirs := hwrd3.nodupDirs, disj := hwrd3.disj,
      parentsClosed := hwrd3.parentsClosed }
  have hds3 : darwin = true → noDSunder root s3 := by
    intro hdw f hf
    rw [inv1.files_eq, hf1] at hf
    exact hds hdw f hf
  obtain ⟨inv2, hw4, hclean⟩ := remove_empty_directories_spec darwin root fuel root s3 s4
    hw3 hds3 (List.prefix_refl root) hpr2
  rw [← h3]
  intro hrdmem
  -- rd would be childless in s4, contradicting the final pass's guarantee
  have hchildless : childless s4 rd := by
    rw [childless_iff]
    intro p hp hchild
    have hpsu : strictUnder rd p := strictUnder_of_childOf hchild (List.prefix_refl rd)
    have hps : p ∈ s.files ∨ p ∈ s.dirs ∨ p = rd := by
      rcases hp with hp | hp
      · rw [inv2.files_eq, inv1.files_eq, hf1] at hp
        exact Or.inl hp
      · have hp3 := inv2.dirs_sub p hp
        have hp1 := inv1.dirs_sub p hp3
        rcases hdirsup p hp1 with h | h
        · exact Or.inr (Or.inl h)
        · exact Or.inr (Or.inr h)
    rcases hps with hps | hps | hps
    · exact hnounder p (Or.inl hps) hpsu
    · exact hnounder p (Or.inr hps) hpsu
    · rw [hps] at hpsu
      exact hpsu.2 rfl
  refine hclean rd hrdmem ⟨?_, ?_⟩ hchildless
  · rw [hrddef]
    exact List.prefix_append root _
  · rw [hrddef]
    simp

theorem C10_empty_pass_session_unchanged_witness :
    (none : Option Record) = none ∧ ([] : Record) = [] ∧
      ((none : Option Record) = none → ∀ s₀ : FS,
        retrieveThisMaps none s₀ = .err .noSession s₀) ∧
      (∀ m₀, (none : Option Record) = some m₀ → ∀ s₀ : FS,
        retrieveThisMaps none s₀ = .ok [m₀]) :=
  C10_empty_pass_session_unchanged false ["r"] ["pdf"] [["a.pdf"]] none none none
    { files := [["r", "a.pdf"]], dirs := [["r"]], recs := [] } 30 []
    { files := [["r", "a.pdf"]], dirs := [["r"]], recs := [] }
    (by decide) rfl

theorem C4_empty_pass_no_batch_dir_witness :
    ([] : Record) = [] ∧
      ["r"] ++ [relocationDirName none] ∉
        ({ files := [["r", "a.pdf"]], dirs := [["r"]], recs := [] } : FS).dirs :=
  C4_empty_pass_no_batch_dir false ["r"] ["pdf"] [["a.pdf"]] none none none
    { files := [["r", "a.pdf"]], dirs := [["r"]], recs := [] } 30 []
    { files := [["r", "a.pdf"]], dirs := [["r"]], recs := [] }
    (Wf_of_WfB (by decide)) (fun h => by cases h) (by decide) (by decide) rfl

/-! ### Directory pruning, claim C7 -/

theorem wf_remove_ds_store {root : FsPath} {s : FS} (hw : Wf root s) :
    Wf root (remove_ds_store root s) :=
  { root_dir := hw.root_dir, root_ne := hw.root_ne,
    nodupFiles := List.Nodup.filter _ hw.nodupFiles, nodupDirs := hw.nodupDirs,
    disj := fun p hp => hw.disj p (List.mem_of_mem_filter hp),
    parentsClosed := by
      intro p hp q hqne hqp hqnep
      refine hw.parentsClosed p ?_ q hqne hqp hqnep
      rcases hp with hp | hp
      · exact Or.inl (List.mem_of_mem_filter hp)
      · exact Or.inr hp }

theorem noDS_remove_ds_store (root : FsPath) (s : FS) :
    noDSunder root (remove_ds_store root s) := by
  intro f hf hsu
  have h1 := List.of_mem_filter hf
  simp only [decide_eq_true_eq] at h1
  intro hname
  exact h1 ⟨hsu, hname⟩

theorem mem_remove_ds_store {root : FsPath} {s : FS} {f : FsPath} :
    f ∈ (remove_ds_store root s).files ↔
      f ∈ s.files ∧ ¬ (strictUnder root f ∧ nameOf f = ".DS_Store") := by
  unfold remove_ds_store
  simp only [List.mem_filter, decide_eq_true_eq]

/-- The guarantees of a successful top-level pruning call, phrased
relative to the state after the darwin `.DS_Store` cleanup (which is the
state itself on other platforms). -/
theorem remove_empty_directories_ok_top (darwin : Bool) (root : FsPath) (fuel : Nat)
    (s s' : FS) (hw : Wf root s)
    (hok : remove_empty_directories darwin root fuel root s = .ok s') :
    PruneInv root (if darwin then remove_ds_store root s else s) s' ∧ Wf root s' ∧
      ∀ d, d ∈ s'.dirs → strictUnder root d → ¬ childless s' d := by
  cases fuel with
  | zero => simp [remove_empty_directories] at hok
  | succ fuel =>
    simp only [remove_empty_directories] at hok
    set s1 : FS := if darwin then remove_ds_store root s else s with hs1def
    have hw1 : Wf root s1 := by
      rw [hs1def]
      cases darwin
      · exact hw
      · exact wf_remove_ds_store hw
    have hds1 : darwin = true → noDSunder root s1 := by
      intro hdw
      rw [hs1def, hdw]
      exact noDS_remove_ds_store root s
    have hroot1 : root ∈ s1.dirs := hw1.root_dir
    rw [if_pos hroot1] at hok
    have hinv0 : LoopInv root (childDirs s1 root) s1 := by
      intro d hd hsu hnp
      exfalso
      obtain ⟨⟨t, ht⟩, hne⟩ := hsu
      rcases t with _ | ⟨a, t'⟩
      · exact hne (by rw [← ht]; simp)
      · have hchild : childOf (root ++ [a]) root := ⟨by simp, List.dropLast_concat⟩
        have hpre : (root ++ [a]) <+: d := by
          rw [← ht]
          exact ⟨t', by simp⟩
        have hmem : root ++ [a] ∈ s1.dirs := by
          by_cases hqd : root ++ [a] = d
          · rw [hqd]; exact hd
          · exact hw1.parentsClosed d (Or.inr hd) _ (by simp) hpre hqd
        exact hnp (root ++ [a]) (mem_childDirs.mpr ⟨hmem, hchild⟩) hpre
    obtain ⟨inv, hw', hinvEnd⟩ :=
      pruneLoop_spec (remove_empty_directories_spec darwin root fuel)
        (List.prefix_refl root) (childDirs s1 root) s1 s' hw1 hds1
        (fun c hc => (mem_childDirs.mp hc).2) hinv0 hok
    exact ⟨inv, hw', fun d hd hsu =>
      hinvEnd d hd hsu (fun c h => absurd h (List.not_mem_nil c))⟩

theorem exists_max_len_mem (l : List FsPath) (hl : l ≠ []) :
    ∃ e ∈ l, ∀ x ∈ l, x.length ≤ e.length := by
  induction l with
  | nil => exact absurd rfl hl
  | cons a t ih =>
    rcases t with _ | ⟨b, t'⟩
    · exact ⟨a, by simp, by simp⟩
    · obtain ⟨e, he, hmax⟩ := ih (by simp)
      by_cases h : e.length ≤ a.length
      · refine ⟨a, by simp, ?_⟩
        intro x hx
        rcases List.mem_cons.mp hx with rfl | hx'
        · exact Nat.le_refl _
        · exact Nat.le_trans (hmax x hx') h
      · refine ⟨e, List.mem_cons_of_mem _ he, ?_⟩
        intro x hx
        rcases List.mem_cons.mp hx with rfl | hx'
        · exact Nat.le_of_lt (Nat.lt_of_not_le h)
        · exact hmax x hx'

/-- Claim C7 (counterexample): Scenario D on darwin — the root contains
only the ignorable artifact `.DS_Store`.  The pruning pass deletes the
artifact but `root` itself is NOT removed (the loop only ever removes
subdirectories of the traversed parents), contradicting "root itself
included". -/
theorem C7_counterexample :
    remove_empty_directories true ["t"] 50 ["t"]
        { files := [["t", ".DS_Store"]], dirs := [["t"]], recs := [] }
      = .ok { files := [], dirs := [["t"]], recs := [] } ∧
      ["t"] ∈ ({ files := [], dirs := [["t"]], recs := [] } : FS).dirs :=
  ⟨rfl, by decide⟩

/-- Claim C7 (amended): on darwin, a successful
`remove_empty_directories(root)` deletes every `.DS_Store` below the
root (even inside directories that are kept), never deletes `root`
itself, keeps every directory that has a non-artifact file strictly
below it, and leaves no directory strictly below the root whose
recursive content was empty or consisted only of artifacts: every
surviving directory strictly below the root has a surviving file
strictly below it.  (On other platforms no artifact cleanup happens at
all, a further divergence from the claim's "on every platform".) -/
theorem C7_prune_artifacts_and_empty_dirs (root : FsPath) (fuel : Nat) (s s' : FS)
    (hw : Wf root s)
    (hok : remove_empty_directories true root fuel root s = .ok s') :
    root ∈ s'.dirs ∧
      (∀ f, f ∈ s'.files ↔
        f ∈ s.files ∧ ¬ (strictUnder root f ∧ nameOf f = ".DS_Store")) ∧
      (∀ d ∈ s.dirs, (∃ f, f ∈ s.files ∧ strictUnder d f ∧
        ¬ (strictUnder root f ∧ nameOf f = ".DS_Store")) → d ∈ s'.dirs) ∧
      (∀ d ∈ s'.dirs, d ∈ s.dirs) ∧
      (∀ d ∈ s'.dirs, strictUnder root d → ∃ f, f ∈ s'.files ∧ strictUnder d f) := by
  obtain ⟨inv, hw', hclean⟩ := remove_empty_directories_ok_top true root fuel s s' hw hok
  simp only [if_true] at inv
  have hfiles : ∀ f, f ∈ s'.files ↔
      f ∈ s.files ∧ ¬ (strictUnder root f ∧ nameOf f = ".DS_Store") := by
    intro f
    rw [inv.files_eq, mem_remove_ds_store]
  refine ⟨hw'.root_dir, hfiles, ?_, ?_, ?_⟩
  · intro d hd ⟨f, hf, hsu, hnds⟩
    refine inv.keep_filedesc d ?_ ⟨f, ?_, hsu⟩
    · show d ∈ (remove_ds_store root s).dirs
      exact hd
    · rw [show (remove_ds_store root s).files
        = (remove_ds_store root s).files from rfl, mem_remove_ds_store]
      exact ⟨hf, hnds⟩
  · intro d hd
    have h1 := inv.dirs_sub d hd
    exact h1
  · intro d hd hsu
    by_contra hno
    push_neg at hno
    set lst := s'.dirs.filter (fun x => decide (d <+: x)) with hlstdef
    have hdl : d ∈ lst := by
      rw [hlstdef]
      exact List.mem_filter.mpr ⟨hd, by simp⟩
    obtain ⟨e, he, hmax⟩ := exists_max_len_mem lst (fun h0 => by rw [h0] at hdl; cases hdl)
    have hed : d <+: e := by
      have := List.of_mem_filter he
      simpa using this
    have hemem : e ∈ s'.dirs := List.mem_of_mem_filter he
    have hdlen : d.length ≤ e.length := hed.length_le
    have hesu : strictUnder root e := by
      refine ⟨hsu.1.trans hed, ?_⟩
      intro h0
      have h1 := strictUnder_length hsu
      rw [h0] at h1
      omega
    refine hclean e hemem hesu ?_
    rw [childless_iff]
    intro p hp hchild
    have hep : strictUnder e p := strictUnder_of_childOf hchild (List.prefix_refl e)
    rcases hp with hp | hp
    · exact hno p hp (strictUnder_trans_left hed hep)
    · have hplst : p ∈ lst := by
        rw [hlstdef]
        refine List.mem_filter.mpr ⟨hp, ?_⟩
        simp only [decide_eq_true_eq]
        exact hed.trans hep.1
      have h2 := hmax p hplst
      have h3 := childOf_length hchild
      omega

theorem C7_prune_artifacts_and_empty_dirs_witness :
    ["t"] ∈ ({ files := [["t", "keep", "doc.pdf"]], dirs := [["t"], ["t", "keep"]], recs := [] } : FS).dirs ∧
      (∀ f, f ∈ ({ files := [["t", "keep", "doc.pdf"]], dirs := [["t"], ["t", "keep"]], recs := [] } : FS).files ↔
        f ∈ ({ files := [["t", ".DS_Store"], ["t", "keep", "doc.pdf"], ["t", "junk", ".DS_Store"]], dirs := [["t"], ["t", "keep"], ["t", "junk"]], recs := [] } : FS).files ∧
          ¬ (strictUnder ["t"] f ∧ nameOf f = ".DS_Store")) ∧
      (∀ d ∈ ({ files := [["t", ".DS_Store"], ["t", "keep", "doc.pdf"], ["t", "junk", ".DS_Store"]], dirs := [["t"], ["t", "keep"], ["t", "junk"]], recs := [] } : FS).dirs,
        (∃ f, f ∈ ({ files := [["t", ".DS_Store"], ["t", "keep", "doc.pdf"], ["t", "junk", ".DS_Store"]], dirs := [["t"], ["t", "keep"], ["t", "junk"]], recs := [] } : FS).files ∧
          strictUnder d f ∧ ¬ (strictUnder ["t"] f ∧ nameOf f = ".DS_Store")) →
        d ∈ ({ files := [["t", "keep", "doc.pdf"]], dirs := [["t"], ["t", "keep"]], recs := [] } : FS).dirs) ∧
      (∀ d ∈ ({ files := [["t", "keep", "doc.pdf"]], dirs := [["t"], ["t", "keep"]], recs := [] } : FS).dirs,
        d ∈ ({ files := [["t", ".DS_Store"], ["t", "keep", "doc.pdf"], ["t", "junk", ".DS_Store"]], dirs := [["t"], ["t", "keep"], ["t", "junk"]], recs := [] } : FS).dirs) ∧
      (∀ d ∈ ({ files := [["t", "keep", "doc.pdf"]], dirs := [["t"], ["t", "keep"]], recs := [] } : FS).dirs,
        strictUnder ["t"] d → ∃ f, f ∈ ({ files := [["t", "keep", "doc.pdf"]], dirs := [["t"], ["t", "keep"]], recs := [] } : FS).files ∧ strictUnder d f) :=
  C7_prune_artifacts_and_empty_dirs ["t"] 50
    { files := [["t", ".DS_Store"], ["t", "keep", "doc.pdf"], ["t", "junk", ".DS_Store"]], dirs := [["t"], ["t", "keep"], ["t", "junk"]], recs := [] }
    { files := [["t", "keep", "doc.pdf"]], dirs := [["t"], ["t", "keep"]], recs := [] }
    (Wf_of_WfB (by decide)) rfl

/-! ### Removal of quarantined files (claim C8) -/

/-- Claim C8 (failing input): a record whose every quarantined path is
already missing.  `remove_unlinked_files` then raises an
`AttributeError` (line 464 of `zot.py` evaluates
`relocation_map_path.is_file()` while `relocation_map_path` is still
`None`), instead of silently skipping the missing paths and deleting the
record file: the record file survives, still listed in the state carried
by the error. -/
theorem C8_record_all_missing_attribute_error :
    remove_unlinked_files false ["r"]
        [[(["r", "_unlinked_files", "b.pdf"], ["r", "b.pdf"])]]
        { files := [["r", "_unlinked_files", "_relocation_map.json"]],
          dirs := [["r"], ["r", "_unlinked_files"]],
          recs := [(["r", "_unlinked_files", "_relocation_map.json"],
                    [(["r", "_unlinked_files", "b.pdf"], ["r", "b.pdf"])])] } 30
      = .err .attrNone
          { files := [["r", "_unlinked_files", "_relocation_map.json"]],
            dirs := [["r"], ["r", "_unlinked_files"]],
            recs := [(["r", "_unlinked_files", "_relocation_map.json"],
                      [(["r", "_unlinked_files", "b.pdf"], ["r", "b.pdf"])])] } ∧
      ["r", "_unlinked_files", "_relocation_map.json"] ∈
        ({ files := [["r", "_unlinked_files", "_relocation_map.json"]],
           dirs := [["r"], ["r", "_unlinked_files"]],
           recs := [(["r", "_unlinked_files", "_relocation_map.json"],
                     [(["r", "_unlinked_files", "b.pdf"], ["r", "b.pdf"])])] } : FS).files :=
  ⟨rfl, by decide⟩

/-! ### Restoration of quarantined files (claim C9) -/

theorem mem_foldl_insertP {d : FsPath} :
    ∀ (ps : List FsPath) {l : List FsPath}, d ∈ l → d ∈ ps.foldl insertP l := by
  intro ps
  induction ps with
  | nil => intro l h; exact h
  | cons p ps ih => intro l h; exact ih (mem_insertP.mpr (Or.inl h))

/-- The parent-creation step of the restore loop (line 500-501 of
`zot.py`): when it returns normally it never touches files or records,
and only adds directories. -/
theorem mkdirParentsStep_files {s s1 : FS} {pd : FsPath}
    (h : (if pd ∈ s.dirs then Res.ok s else mkdirParentsF s pd) = .ok s1) :
    s1.files = s.files ∧ s1.recs = s.recs ∧ ∀ d ∈ s.dirs, d ∈ s1.dirs := by
  by_cases hpd : pd ∈ s.dirs
  · rw [if_pos hpd] at h
    injection h with h'
    subst h'
    exact ⟨rfl, rfl, fun d hd => hd⟩
  · rw [if_neg hpd] at h
    unfold mkdirParentsF at h
    by_cases hf : pd ∈ s.files
    · rw [if_pos hf] at h
      exact Res.noConfusion h
    · rw [if_neg hf] at h
      injection h with h'
      subst h'
      exact ⟨rfl, rfl, fun d hd => mem_foldl_insertP _ hd⟩

theorem restoreEntriesLoop_append (l₁ l₂ : List (FsPath × FsPath)) (mp : Option FsPath)
    (s : FS) :
    restoreEntriesLoop (l₁ ++ l₂) mp s
      = (restoreEntriesLoop l₁ mp s).bind (fun r => restoreEntriesLoop l₂ r.1 r.2) := by
  induction l₁ generalizing mp s with
  | nil => simp [restoreEntriesLoop, Res.bind]
  | cons e rest ih =>
    obtain ⟨q, o⟩ := e
    show restoreEntriesLoop ((q, o) :: (rest ++ l₂)) mp s = _
    simp only [restoreEntriesLoop]
    by_cases hq : q ∈ s.files
    · rw [if_pos hq, if_pos hq]
      cases hmk : (if parentPath o ∈ s.dirs then Res.ok s else mkdirParentsF s (parentPath o)) with
      | err e t => rw [Res.bind_err, Res.bind_err, Res.bind_err]
      | ok s1 =>
        rw [Res.bind_ok, Res.bind_ok]
        by_cases ho : o ∈ s1.files
        · rw [if_pos ho, if_pos ho, Res.bind_err]
        · rw [if_neg ho, if_neg ho]
          exact ih _ _
    · rw [if_neg hq, if_neg hq]
      exact ih _ _

theorem restoreMapsLoop_append (l₁ l₂ : List Record) (s : FS) :
    restoreMapsLoop (l₁ ++ l₂) s = (restoreMapsLoop l₁ s).bind (fun t => restoreMapsLoop l₂ t) := by
  induction l₁ generalizing s with
  | nil => simp [restoreMapsLoop, Res.bind]
  | cons m rest ih =>
    show restoreMapsLoop (m :: (rest ++ l₂)) s = _
    rw [restoreMapsLoop, restoreMapsLoop]
    cases hr : restoreEntriesLoop m none s with
    | err e t => rw [Res.bind_err, Res.bind_err, Res.bind_err]
    | ok r =>
      rw [Res.bind_ok, Res.bind_ok]
      obtain ⟨mp, t⟩ := r
      cases mp with
      | none => rw [Res.bind_err]
      | some p => exact ih _

/-- A successful run of the restore entries loop removes no file other
than the quarantined sources of the entries it processes; in particular
the batch record file, and every file restored by a preceding record,
survive. -/
theorem restoreEntriesLoop_keep (entries : List (FsPath × FsPath)) (mp mp' : Option FsPath)
    (s s' : FS) (h : restoreEntriesLoop entries mp s = .ok (mp', s')) :
    ∀ f ∈ s.files, f ∉ entries.map Prod.fst → f ∈ s'.files := by
  induction entries generalizing mp s with
  | nil =>
    intro f hf _
    rw [restoreEntriesLoop] at h
    injection h with h'
    injection h' with h1 h2
    rw [← h2]
    exact hf
  | cons e rest ih =>
    obtain ⟨q, o⟩ := e
    intro f hf hnf
    simp only [List.map_cons, List.mem_cons, not_or] at hnf
    obtain ⟨hfq, hnrest⟩ := hnf
    simp only [restoreEntriesLoop] at h
    by_cases hq : q ∈ s.files
    · rw [if_pos hq] at h
      obtain ⟨s1, hs1, h2⟩ := Res.bind_eq_ok.mp h
      obtain ⟨hf1, _, _⟩ := mkdirParentsStep_files hs1
      by_cases ho : o ∈ s1.files
      · rw [if_pos ho] at h2
        exact Res.noConfusion h2
      · rw [if_neg ho] at h2
        refine ih _ _ h2 f ?_ hnrest
        exact mem_insertP.mpr (Or.inl (mem_eraseAllP.mpr ⟨by rw [hf1]; exact hf, hfq⟩))
    · rw [if_neg hq] at h
      exact ih _ _ h f hf hnrest

/-- When the quarantined sources of a record are pairwise distinct (they
are dict keys in the real record), all exist, and no recorded original
path collides with a source, a successful run of the entries loop leaves
every entry's original path present: every moved entry stays at its
restored location. -/
theorem restoreEntriesLoop_all_moved (entries : List (FsPath × FsPath))
    (mp mp' : Option FsPath) (s s' : FS)
    (h : restoreEntriesLoop entries mp s = .ok (mp', s'))
    (hsrc : ∀ e ∈ entries, e.1 ∈ s.files)
    (hnd : (entries.map Prod.fst).Nodup)
    (hds : ∀ e ∈ entries, e.2 ∉ entries.map Prod.fst) :
    ∀ e ∈ entries, e.2 ∈ s'.files := by
  induction entries generalizing mp s with
  | nil =>
    intro e he
    exact absurd he (List.not_mem_nil e)
  | cons e0 rest ih =>
    obtain ⟨q, o⟩ := e0
    intro e he
    have hq : q ∈ s.files := hsrc (q, o) (List.mem_cons_self _ _)
    simp only [restoreEntriesLoop] at h
    rw [if_pos hq] at h
    obtain ⟨s1, hs1, h2⟩ := Res.bind_eq_ok.mp h
    obtain ⟨hf1, _, _⟩ := mkdirParentsStep_files hs1
    by_cases ho : o ∈ s1.files
    · rw [if_pos ho] at h2
      exact Res.noConfusion h2
    · rw [if_neg ho] at h2
      simp only [List.map_cons, List.nodup_cons] at hnd
      obtain ⟨hqrest, hndrest⟩ := hnd
      rcases List.mem_cons.mp he with he0 | hemem
      · have hoo : o ∉ rest.map Prod.fst := by
          have := hds (q, o) (List.mem_cons_self _ _)
          simp only [List.map_cons, List.mem_cons, not_or] at this
          exact this.2
        have hoIn : o ∈ (renameF s1 q o).files := mem_insertP.mpr (Or.inr rfl)
        rw [he0]
        exact restoreEntriesLoop_keep rest _ _ _ _ h2 o hoIn hoo
      · refine ih _ _ h2 ?_ hndrest ?_ e hemem
        · intro e' he'
          have h1 : e'.1 ∈ s.files := hsrc e' (List.mem_cons_of_mem _ he')
          have hne : e'.1 ≠ q := by
            intro hh
            exact hqrest (hh ▸ List.mem_map_of_mem Prod.fst he')
          exact mem_insertP.mpr (Or.inl (mem_eraseAllP.mpr ⟨by rw [hf1]; exact h1, hne⟩))
        · intro e' he'
          have := hds e' (List.mem_cons_of_mem _ he')
          simp only [List.map_cons, List.mem_cons, not_or] at this
          exact this.2

/-- Claim C9: when restoring, the first entry reached whose quarantined
file still exists but whose recorded original path already exists as a
file makes `restore_unlinked_files` raise `ValueError` (the
restore-conflict error, naming that original path) and abort: at the
raise the file inventory is exactly the state after the already-moved
entries (only `original.parent` directories may have been added), the
conflicting entry's quarantined copy is still in place, every file that
survived the preceding records and is not a quarantined source of the
already-processed entries — in particular this batch's record file,
which is unlinked only after the whole record — is still present, and
(for records with distinct sources not colliding with destinations)
every already-moved entry of this record remains at its restored
location.  The final conjunct specialises to the real
`restore_unlinked_files(this_relocation=True)` entry point. -/
theorem C9_restore_conflict_abort
    (darwin : Bool) (root : FsPath) (pre rest : List Record)
    (done after : List (FsPath × FsPath)) (q o : FsPath)
    (mp : Option FsPath) (s s₁ s₂ s₃ : FS) (fuel : Nat)
    (hpre : restoreMapsLoop pre s = .ok s₁)
    (hdone : restoreEntriesLoop done none s₁ = .ok (mp, s₂))
    (hq : q ∈ s₂.files)
    (hmk : (if parentPath o ∈ s₂.dirs then Res.ok s₂ else mkdirParentsF s₂ (parentPath o))
        = .ok s₃)
    (ho : o ∈ s₃.files) :
    restore_unlinked_files_maps darwin root (pre ++ (done ++ (q, o) :: after) :: rest) s fuel
        = .err (.conflict o) s₃ ∧
      s₃.files = s₂.files ∧
      q ∈ s₃.files ∧
      (∀ f ∈ s₁.files, f ∉ done.map Prod.fst → f ∈ s₃.files) ∧
      ((∀ e ∈ done, e.1 ∈ s₁.files) → (done.map Prod.fst).Nodup →
        (∀ e ∈ done, e.2 ∉ done.map Prod.fst) → ∀ e ∈ done, e.2 ∈ s₃.files) ∧
      (pre = [] → rest = [] →
        restore_unlinked_files darwin root (some (done ++ (q, o) :: after)) s fuel
          = .err (.conflict o) s₃) := by
  obtain ⟨hf32, hr32, hd23⟩ := mkdirParentsStep_files hmk
  have hent : restoreEntriesLoop (done ++ (q, o) :: after) none s₁ = .err (.conflict o) s₃ := by
    rw [restoreEntriesLoop_append, hdone, Res.bind_ok]
    simp only [restoreEntriesLoop]
    rw [if_pos hq, hmk, Res.bind_ok, if_pos ho]
  have hmaps : restoreMapsLoop (pre ++ (done ++ (q, o) :: after) :: rest) s
      = .err (.conflict o) s₃ := by
    rw [restoreMapsLoop_append, hpre, Res.bind_ok, restoreMapsLoop, hent, Res.bind_err]
  have hmain : restore_unlinked_files_maps darwin root
      (pre ++ (done ++ (q, o) :: after) :: rest) s fuel = .err (.conflict o) s₃ := by
    unfold restore_unlinked_files_maps
    rw [hmaps, Res.bind_err]
  refine ⟨hmain, hf32, by rw [hf32]; exact hq, ?_, ?_, ?_⟩
  · intro f hf hnf
    rw [hf32]
    exact restoreEntriesLoop_keep done none mp s₁ s₂ hdone f hf hnf
  · intro h1 h2 h3 e he
    rw [hf32]
    exact restoreEntriesLoop_all_moved done none mp s₁ s₂ hdone h1 h2 h3 e he
  · intro hp hr
    subst hp
    subst hr
    unfold restore_unlinked_files retrieveThisMaps
    rw [Res.bind_ok]
    exact hmain

theorem C9_restore_conflict_abort_witness :
    restore_unlinked_files_maps false ["r"]
        [[(["r", "_unlinked_files", "b.pdf"], ["r", "b.pdf"])]]
        { files := [["r", "_unlinked_files", "b.pdf"], ["r", "_unlinked_files", "_relocation_map.json"], ["r", "b.pdf"]], dirs := [["r"], ["r", "_unlinked_files"]], recs := [(["r", "_unlinked_files", "_relocation_map.json"], [(["r", "_unlinked_files", "b.pdf"], ["r", "b.pdf"])])] } 10
        = .err (.conflict ["r", "b.pdf"])
            { files := [["r", "_unlinked_files", "b.pdf"], ["r", "_unlinked_files", "_relocation_map.json"], ["r", "b.pdf"]], dirs := [["r"], ["r", "_unlinked_files"]], recs := [(["r", "_unlinked_files", "_relocation_map.json"], [(["r", "_unlinked_files", "b.pdf"], ["r", "b.pdf"])])] } ∧
      ({ files := [["r", "_unlinked_files", "b.pdf"], ["r", "_unlinked_files", "_relocation_map.json"], ["r", "b.pdf"]], dirs := [["r"], ["r", "_unlinked_files"]], recs := [(["r", "_unlinked_files", "_relocation_map.json"], [(["r", "_unlinked_files", "b.pdf"], ["r", "b.pdf"])])] } : FS).files
        = ({ files := [["r", "_unlinked_files", "b.pdf"], ["r", "_unlinked_files", "_relocation_map.json"], ["r", "b.pdf"]], dirs := [["r"], ["r", "_unlinked_files"]], recs := [(["r", "_unlinked_files", "_relocation_map.json"], [(["r", "_unlinked_files", "b.pdf"], ["r", "b.pdf"])])] } : FS).files ∧
      ["r", "_unlinked_files", "b.pdf"] ∈
        ({ files := [["r", "_unlinked_files", "b.pdf"], ["r", "_unlinked_files", "_relocation_map.json"], ["r", "b.pdf"]], dirs := [["r"], ["r", "_unlinked_files"]], recs := [(["r", "_unlinked_files", "_relocation_map.json"], [(["r", "_unlinked_files", "b.pdf"], ["r", "b.pdf"])])] } : FS).files ∧
      (∀ f ∈ ({ files := [["r", "_unlinked_files", "b.pdf"], ["r", "_unlinked_files", "_relocation_map.json"], ["r", "b.pdf"]], dirs := [["r"], ["r", "_unlinked_files"]], recs := [(["r", "_unlinked_files", "_relocation_map.json"], [(["r", "_unlinked_files", "b.pdf"], ["r", "b.pdf"])])] } : FS).files,
        f ∉ List.map Prod.fst ([] : List (FsPath × FsPath)) →
        f ∈ ({ files := [["r", "_unlinked_files", "b.pdf"], ["r", "_unlinked_files", "_relocation_map.json"], ["r", "b.pdf"]], dirs := [["r"], ["r", "_unlinked_files"]], recs := [(["r", "_unlinked_files", "_relocation_map.json"], [(["r", "_unlinked_files", "b.pdf"], ["r", "b.pdf"])])] } : FS).files) ∧
      ((∀ e ∈ ([] : List (FsPath × FsPath)),
          e.1 ∈ ({ files := [["r", "_unlinked_files", "b.pdf"], ["r", "_unlinked_files", "_relocation_map.json"], ["r", "b.pdf"]], dirs := [["r"], ["r", "_unlinked_files"]], recs := [(["r", "_unlinked_files", "_relocation_map.json"], [(["r", "_unlinked_files", "b.pdf"], ["r", "b.pdf"])])] } : FS).files) →
        (List.map Prod.fst ([] : List (FsPath × FsPath))).Nodup →
        (∀ e ∈ ([] : List (FsPath × FsPath)), e.2 ∉ List.map Prod.fst ([] : List (FsPath × FsPath))) →
        ∀ e ∈ ([] : List (FsPath × FsPath)),
          e.2 ∈ ({ files := [["r", "_unlinked_files", "b.pdf"], ["r", "_unlinked_files", "_relocation_map.json"], ["r", "b.pdf"]], dirs := [["r"], ["r", "_unlinked_files"]], recs := [(["r", "_unlinked_files", "_relocation_map.json"], [(["r", "_unlinked_files", "b.pdf"], ["r", "b.pdf"])])] } : FS).files) ∧
      (([] : List Record) = [] → ([] : List Record) = [] →
        restore_unlinked_files false ["r"]
            (some [(["r", "_unlinked_files", "b.pdf"], ["r", "b.pdf"])])
            { files := [["r", "_unlinked_files", "b.pdf"], ["r", "_unlinked_files", "_relocation_map.json"], ["r", "b.pdf"]], dirs := [["r"], ["r", "_unlinked_files"]], recs := [(["r", "_unlinked_files", "_relocation_map.json"], [(["r", "_unlinked_files", "b.pdf"], ["r", "b.pdf"])])] } 10
          = .err (.conflict ["r", "b.pdf"])
              { files := [["r", "_unlinked_files", "b.pdf"], ["r", "_unlinked_files", "_relocation_map.json"], ["r", "b.pdf"]], dirs := [["r"], ["r", "_unlinked_files"]], recs := [(["r", "_unlinked_files", "_relocation_map.json"], [(["r", "_unlinked_files", "b.pdf"], ["r", "b.pdf"])])] }) :=
  C9_restore_conflict_abort false ["r"] [] [] [] []
    ["r", "_unlinked_files", "b.pdf"] ["r", "b.pdf"] none
    { files := [["r", "_unlinked_files", "b.pdf"], ["r", "_unlinked_files", "_relocation_map.json"], ["r", "b.pdf"]], dirs := [["r"], ["r", "_unlinked_files"]], recs := [(["r", "_unlinked_files", "_relocation_map.json"], [(["r", "_unlinked_files", "b.pdf"], ["r", "b.pdf"])])] }
    { files := [["r", "_unlinked_files", "b.pdf"], ["r", "_unlinked_files", "_relocation_map.json"], ["r", "b.pdf"]], dirs := [["r"], ["r", "_unlinked_files"]], recs := [(["r", "_unlinked_files", "_relocation_map.json"], [(["r", "_unlinked_files", "b.pdf"], ["r", "b.pdf"])])] }
    { files := [["r", "_unlinked_files", "b.pdf"], ["r", "_unlinked_files", "_relocation_map.json"], ["r", "b.pdf"]], dirs := [["r"], ["r", "_unlinked_files"]], recs := [(["r", "_unlinked_files", "_relocation_map.json"], [(["r", "_unlinked_files", "b.pdf"], ["r", "b.pdf"])])] }
    { files := [["r", "_unlinked_files", "b.pdf"], ["r", "_unlinked_files", "_relocation_map.json"], ["r", "b.pdf"]], dirs := [["r"], ["r", "_unlinked_files"]], recs := [(["r", "_unlinked_files", "_relocation_map.json"], [(["r", "_unlinked_files", "b.pdf"], ["r", "b.pdf"])])] }
    10 rfl rfl (by decide) rfl (by decide)

/-! ### Round trip of relocate and restore (claim C1) -/

theorem parentPath_append_nameOf {p : FsPath} (h : p ≠ []) :
    parentPath p ++ [nameOf p] = p := by
  rcases List.eq_nil_or_concat p with rfl | ⟨l, a, rfl⟩
  · exact absurd rfl h
  · rw [List.concat_eq_append, parentPath_concat, nameOf_concat]

theorem mem_prefixesOf {d l : FsPath} :
    d ∈ prefixesOf l ↔ d ≠ [] ∧ d <+: l := by
  unfold prefixesOf
  simp only [List.mem_map, List.mem_range]
  constructor
  · rintro ⟨i, hi, rfl⟩
    refine ⟨?_, List.take_prefix _ _⟩
    have hlen : (l.take (i + 1)).length = i + 1 := by
      rw [List.length_take]
      omega
    intro h0
    rw [h0] at hlen
    simp at hlen
  · rintro ⟨hne, hpre⟩
    obtain ⟨t, rfl⟩ := hpre
    have h2 : 0 < d.length := List.length_pos.mpr hne
    refine ⟨d.length - 1, by simp; omega, ?_⟩
    have h3 : d.length - 1 + 1 = d.length := by omega
    rw [h3]
    exact List.take_left d t

theorem mem_foldl_insertP_inv {d : FsPath} :
    ∀ (ps : List FsPath) {l : List FsPath}, d ∈ ps.foldl insertP l → d ∈ l ∨ d ∈ ps := by
  intro ps
  induction ps with
  | nil => intro l h; exact Or.inl h
  | cons p ps ih =>
    intro l h
    rcases ih h with h2 | h2
    · rw [mem_insertP] at h2
      rcases h2 with h2 | h2
      · exact Or.inl h2
      · exact Or.inr (h2 ▸ List.mem_cons_self p ps)
    · exact Or.inr (List.mem_cons_of_mem _ h2)

theorem mem_foldl_insertP_self {d : FsPath} :
    ∀ (ps : List FsPath) {l : List FsPath}, d ∈ ps → d ∈ ps.foldl insertP l := by
  intro ps
  induction ps with
  | nil => intro l h; exact absurd h (List.not_mem_nil d)
  | cons p ps ih =>
    intro l h
    show d ∈ ps.foldl insertP (insertP l p)
    rcases List.mem_cons.mp h with rfl | h2
    · exact mem_foldl_insertP ps (mem_insertP.mpr (Or.inr rfl))
    · exact ih h2

theorem relocateMoves_dirs (rd : FsPath) :
    ∀ (l : List FsPath) (m : Record) (s : FS), (relocateMoves rd l m s).2.dirs = s.dirs := by
  intro l
  induction l with
  | nil => intro m s; rfl
  | cons p rest ih =>
    intro m s
    show (relocateMoves rd rest _ (renameF s p (rd ++ [nameOf p]))).2.dirs = s.dirs
    rw [ih]
    rfl

theorem relocateMoves_files_nodup (rd : FsPath) :
    ∀ (l : List FsPath) (m : Record) (s : FS), s.files.Nodup →
      (relocateMoves rd l m s).2.files.Nodup := by
  intro l
  induction l with
  | nil => intro m s h; exact h
  | cons p rest ih =>
    intro m s h
    refine ih _ _ ?_
    show (insertP (eraseAllP s.files p) (rd ++ [nameOf p])).Nodup
    exact nodup_insertP (nodup_eraseAllP h)

/-- With fresh keys and pairwise-distinct basenames the move loop's
record is exactly `quarantined-path ↦ original-path` over the unlinked
files, in scan order. -/
theorem relocateMoves_record (rd : FsPath) :
    ∀ (l : List FsPath) (m : Record) (s : FS),
      (∀ p ∈ l, rd ++ [nameOf p] ∉ m.map Prod.fst) → (l.map nameOf).Nodup →
      (relocateMoves rd l m s).1 = m ++ l.map (fun p => (rd ++ [nameOf p], p)) := by
  intro l
  induction l with
  | nil => intro m s _ _; simp [relocateMoves]
  | cons p rest ih =>
    intro m s hkeys hnames
    show (relocateMoves rd rest (dictInsert m (rd ++ [nameOf p]) p) _).1 = _
    have hknew : rd ++ [nameOf p] ∉ m.map Prod.fst := hkeys p (List.mem_cons_self _ _)
    have hstep : dictInsert m (rd ++ [nameOf p]) p = m ++ [(rd ++ [nameOf p], p)] := by
      unfold dictInsert
      rw [if_neg hknew]
    simp only [List.map_cons, List.nodup_cons] at hnames
    have h1 : ∀ p' ∈ rest, rd ++ [nameOf p'] ∉ (m ++ [(rd ++ [nameOf p], p)]).map Prod.fst := by
      intro p' hp'
      rw [List.map_append, List.mem_append]
      rintro (h | h)
      · exact hkeys p' (List.mem_cons_of_mem _ hp') h
      · simp only [List.map_cons, List.map_nil, List.mem_singleton] at h
        have h2 : nameOf p' = nameOf p := by
          have h3 := List.append_cancel_left h
          simpa using h3
        exact hnames.1 (h2 ▸ List.mem_map_of_mem nameOf hp')
    rw [hstep, ih _ _ h1 hnames.2, List.append_assoc]
    rfl

/-- Every quarantined target is present in the tree after the move loop
(given distinct basenames and sources outside the batch directory). -/
theorem relocateMoves_target_present (rd : FsPath) :
    ∀ (l : List FsPath) (m : Record) (s : FS),
      (l.map nameOf).Nodup → (∀ p ∈ l, parentPath p ≠ rd) →
      ∀ p ∈ l, rd ++ [nameOf p] ∈ (relocateMoves rd l m s).2.files := by
  intro l
  induction l with
  | nil => intro m s _ _ p hp; exact absurd hp (List.not_mem_nil p)
  | cons q rest ih =>
    intro m s hnd hpar p hp
    rcases List.mem_cons.mp hp with rfl | hp'
    · refine relocateMoves_files_keep rd rest _ _ _ ?_ ?_
      · show rd ++ [nameOf p] ∈ insertP (eraseAllP s.files p) (rd ++ [nameOf p])
        exact mem_insertP.mpr (Or.inr rfl)
      · intro hmem
        exact hpar _ (List.mem_cons_of_mem _ hmem) (parentPath_concat rd (nameOf p))
    · simp only [List.map_cons, List.nodup_cons] at hnd
      exact ih _ _ hnd.2 (fun p' h' => hpar p' (List.mem_cons_of_mem _ h')) p hp'

/-- Distinct basenames give distinct quarantined paths. -/
theorem nodup_map_concat (rd : FsPath) {l : List FsPath} (hn : (l.map nameOf).Nodup) :
    (l.map (fun p => rd ++ [nameOf p])).Nodup := by
  have he : (fun p => rd ++ [nameOf p]) = ((fun n => rd ++ [n]) ∘ nameOf) := rfl
  rw [he, ← List.map_map]
  refine hn.map ?_
  intro a b h
  have h2 := List.append_cancel_left h
  simpa using h2

theorem nodup_foldl_insertP : ∀ (ps l : List FsPath), l.Nodup → (ps.foldl insertP l).Nodup := by
  intro ps
  induction ps with
  | nil => intro l h; exact h
  | cons p ps ih =>
    intro l h
    show (ps.foldl insertP (insertP l p)).Nodup
    exact ih _ (nodup_insertP h)

theorem mkdirParentsStep_dirs_upper {s s1 : FS} {pd : FsPath}
    (h : (if pd ∈ s.dirs then Res.ok s else mkdirParentsF s pd) = .ok s1) :
    ∀ d ∈ s1.dirs, d ∈ s.dirs ∨ d ∈ prefixesOf pd := by
  by_cases hpd : pd ∈ s.dirs
  · rw [if_pos hpd] at h
    injection h with h'
    subst h'
    exact fun d hd => Or.inl hd
  · rw [if_neg hpd] at h
    unfold mkdirParentsF at h
    by_cases hf : pd ∈ s.files
    · rw [if_pos hf] at h
      exact Res.noConfusion h
    · rw [if_neg hf] at h
      injection h with h'
      subst h'
      intro d hd
      exact mem_foldl_insertP_inv _ hd

theorem mkdirParentsStep_dirsClosed {s s1 : FS} {pd : FsPath}
    (h : (if pd ∈ s.dirs then Res.ok s else mkdirParentsF s pd) = .ok s1)
    (hc : dirsClosed s) : dirsClosed s1 := by
  by_cases hpd : pd ∈ s.dirs
  · rw [if_pos hpd] at h
    injection h with h'
    subst h'
    exact hc
  · rw [if_neg hpd] at h
    unfold mkdirParentsF at h
    by_cases hf : pd ∈ s.files
    · rw [if_pos hf] at h
      exact Res.noConfusion h
    · rw [if_neg hf] at h
      injection h with h'
      subst h'
      intro d hd q hqne hqpre
      rcases mem_foldl_insertP_inv _ hd with hd2 | hd2
      · exact mem_foldl_insertP _ (hc d hd2 q hqne hqpre)
      · have hdp := mem_prefixesOf.mp hd2
        exact mem_foldl_insertP_self _ (mem_prefixesOf.mpr ⟨hqne, hqpre.trans hdp.2⟩)

theorem mkdirParentsStep_dirs_nodup {s s1 : FS} {pd : FsPath}
    (h : (if pd ∈ s.dirs then Res.ok s else mkdirParentsF s pd) = .ok s1)
    (hn : s.dirs.Nodup) : s1.dirs.Nodup := by
  by_cases hpd : pd ∈ s.dirs
  · rw [if_pos hpd] at h
    injection h with h'
    subst h'
    exact hn
  · rw [if_neg hpd] at h
    unfold mkdirParentsF at h
    by_cases hf : pd ∈ s.files
    · rw [if_pos hf] at h
      exact Res.noConfusion h
    · rw [if_neg hf] at h
      injection h with h'
      subst h'
      exact nodup_foldl_insertP _ _ hn

theorem restoreEntriesLoop_dirs_mono (entries : List (FsPath × FsPath))
    (mp mp' : Option FsPath) (s s' : FS)
    (h : restoreEntriesLoop entries mp s = .ok (mp', s')) :
    ∀ d ∈ s.dirs, d ∈ s'.dirs := by
  induction entries generalizing mp s with
  | nil =>
    intro d hd
    rw [restoreEntriesLoop] at h
    injection h with h'
    injection h' with h1 h2
    rw [← h2]
    exact hd
  | cons e rest ih =>
    obtain ⟨q, o⟩ := e
    intro d hd
    simp only [restoreEntriesLoop] at h
    by_cases hq : q ∈ s.files
    · rw [if_pos hq] at h
      obtain ⟨s1, hs1, h2⟩ := Res.bind_eq_ok.mp h
      obtain ⟨_, _, hdm⟩ := mkdirParentsStep_files hs1
      by_cases ho : o ∈ s1.files
      · rw [if_pos ho] at h2
        exact Res.noConfusion h2
      · rw [if_neg ho] at h2
        exact ih _ _ h2 d (hdm d hd)
    · rw [if_neg hq] at h
      exact ih _ _ h d hd

theorem restoreEntriesLoop_dirs_upper (entries : List (FsPath × FsPath))
    (mp mp' : Option FsPath) (s s' : FS)
    (h : restoreEntriesLoop entries mp s = .ok (mp', s')) :
    ∀ d ∈ s'.dirs, d ∈ s.dirs ∨ ∃ e ∈ entries, d ∈ prefixesOf (parentPath e.2) := by
  induction entries generalizing mp s with
  | nil =>
    intro d hd
    rw [restoreEntriesLoop] at h
    injection h with h'
    injection h' with h1 h2
    rw [← h2] at hd
    exact Or.inl hd
  | cons e rest ih =>
    obtain ⟨q, o⟩ := e
    intro d hd
    simp only [restoreEntriesLoop] at h
    by_cases hq : q ∈ s.files
    · rw [if_pos hq] at h
      obtain ⟨s1, hs1, h2⟩ := Res.bind_eq_ok.mp h
      by_cases ho : o ∈ s1.files
      · rw [if_pos ho] at h2
        exact Res.noConfusion h2
      · rw [if_neg ho] at h2
        rcases ih _ _ h2 d hd with h3 | ⟨e, he, hpre⟩
        · rcases mkdirParentsStep_dirs_upper hs1 d h3 with h4 | h4
          · exact Or.inl h4
          · exact Or.inr ⟨(q, o), List.mem_cons_self _ _, h4⟩
        · exact Or.inr ⟨e, List.mem_cons_of_mem _ he, hpre⟩
    · rw [if_neg hq] at h
      rcases ih _ _ h d hd with h3 | ⟨e, he, hpre⟩
      · exact Or.inl h3
      · exact Or.inr ⟨e, List.mem_cons_of_mem _ he, hpre⟩

theorem restoreEntriesLoop_dirsClosed (entries : List (FsPath × FsPath))
    (mp mp' : Option FsPath) (s s' : FS)
    (h : restoreEntriesLoop entries mp s = .ok (mp', s')) (hc : dirsClosed s) :
    dirsClosed s' := by
  induction entries generalizing mp s with
  | nil =>
    rw [restoreEntriesLoop] at h
    injection h with h'
    injection h' with h1 h2
    rw [← h2]
    exact hc
  | cons e rest ih =>
    obtain ⟨q, o⟩ := e
    simp only [restoreEntriesLoop] at h
    by_cases hq : q ∈ s.files
    · rw [if_pos hq] at h
      obtain ⟨s1, hs1, h2⟩ := Res.bind_eq_ok.mp h
      by_cases ho : o ∈ s1.files
      · rw [if_pos ho] at h2
        exact Res.noConfusion h2
      · rw [if_neg ho] at h2
        have hc1 : dirsClosed s1 := mkdirParentsStep_dirsClosed hs1 hc
        exact ih _ _ h2 hc1
    · rw [if_neg hq] at h
      exact ih _ _ h hc

theorem restoreEntriesLoop_recs_eq (entries : List (FsPath × FsPath))
    (mp mp' : Option FsPath) (s s' : FS)
    (h : restoreEntriesLoop entries mp s = .ok (mp', s')) :
    s'.recs = s.recs := by
  induction entries generalizing mp s with
  | nil =>
    rw [restoreEntriesLoop] at h
    injection h with h'
    injection h' with h1 h2
    rw [← h2]
  | cons e rest ih =>
    obtain ⟨q, o⟩ := e
    simp only [restoreEntriesLoop] at h
    by_cases hq : q ∈ s.files
    · rw [if_pos hq] at h
      obtain ⟨s1, hs1, h2⟩ := Res.bind_eq_ok.mp h
      obtain ⟨_, hr1, _⟩ := mkdirParentsStep_files hs1
      by_cases ho : o ∈ s1.files
      · rw [if_pos ho] at h2
        exact Res.noConfusion h2
      · rw [if_neg ho] at h2
        rw [ih _ _ h2]
        exact hr1
    · rw [if_neg hq] at h
      exact ih _ _ h

theorem restoreEntriesLoop_files_nodup (entries : List (FsPath × FsPath))
    (mp mp' : Option FsPath) (s s' : FS)
    (h : restoreEntriesLoop entries mp s = .ok (mp', s')) (hn : s.files.Nodup) :
    s'.files.Nodup := by
  induction entries generalizing mp s with
  | nil =>
    rw [restoreEntriesLoop] at h
    injection h with h'
    injection h' with h1 h2
    rw [← h2]
    exact hn
  | cons e rest ih =>
    obtain ⟨q, o⟩ := e
    simp only [restoreEntriesLoop] at h
    by_cases hq : q ∈ s.files
    · rw [if_pos hq] at h
      obtain ⟨s1, hs1, h2⟩ := Res.bind_eq_ok.mp h
      obtain ⟨hf1, _, _⟩ := mkdirParentsStep_files hs1
      by_cases ho : o ∈ s1.files
      · rw [if_pos ho] at h2
        exact Res.noConfusion h2
      · rw [if_neg ho] at h2
        refine ih _ _ h2 ?_
        show (insertP (eraseAllP s1.files q) o).Nodup
        exact nodup_insertP (nodup_eraseAllP (hf1 ▸ hn))
    · rw [if_neg hq] at h
      exact ih _ _ h hn

theorem restoreEntriesLoop_dirs_nodup (entries : List (FsPath × FsPath))
    (mp mp' : Option FsPath) (s s' : FS)
    (h : restoreEntriesLoop entries mp s = .ok (mp', s')) (hn : s.dirs.Nodup) :
    s'.dirs.Nodup := by
  induction entries generalizing mp s with
  | nil =>
    rw [restoreEntriesLoop] at h
    injection h with h'
    injection h' with h1 h2
    rw [← h2]
    exact hn
  | cons e rest ih =>
    obtain ⟨q, o⟩ := e
    simp only [restoreEntriesLoop] at h
    by_cases hq : q ∈ s.files
    · rw [if_pos hq] at h
      obtain ⟨s1, hs1, h2⟩ := Res.bind_eq_ok.mp h
      by_cases ho : o ∈ s1.files
      · rw [if_pos ho] at h2
        exact Res.noConfusion h2
      · rw [if_neg ho] at h2
        have hn1 : s1.dirs.Nodup := mkdirParentsStep_dirs_nodup hs1 hn
        exact ih _ _ h2 hn1
    · rw [if_neg hq] at h
      exact ih _ _ h hn

theorem restoreEntriesLoop_mp_some (entries : List (FsPath × FsPath)) :
    ∀ (x : FsPath) (mp' : Option FsPath) (s s' : FS),
      restoreEntriesLoop entries (some x) s = .ok (mp', s') → mp' = some x := by
  induction entries with
  | nil =>
    intro x mp' s s' h
    rw [restoreEntriesLoop] at h
    injection h with h'
    injection h' with h1 h2
    exact h1.symm
  | cons e rest ih =>
    obtain ⟨q, o⟩ := e
    intro x mp' s s' h
    simp only [restoreEntriesLoop] at h
    by_cases hq : q ∈ s.files
    · rw [if_pos hq] at h
      obtain ⟨s1, hs1, h2⟩ := Res.bind_eq_ok.mp h
      by_cases ho : o ∈ s1.files
      · rw [if_pos ho] at h2
        exact Res.noConfusion h2
      · rw [if_neg ho] at h2
        exact ih _ _ _ _ h2
    · rw [if_neg hq] at h
      exact ih _ _ _ _ h

/-- The record-file path variable is set from the first entry whose
quarantined file exists: its parent joined with
`_relocation_map.json`. -/
theorem restoreEntriesLoop_mp_first {q o : FsPath} {rest : List (FsPath × FsPath)}
    {mp' : Option FsPath} {s s' : FS}
    (h : restoreEntriesLoop ((q, o) :: rest) none s = .ok (mp', s')) (hq : q ∈ s.files) :
    mp' = some (parentPath q ++ ["_relocation_map.json"]) := by
  simp only [restoreEntriesLoop] at h
  rw [if_pos hq] at h
  obtain ⟨s1, hs1, h2⟩ := Res.bind_eq_ok.mp h
  by_cases ho : o ∈ s1.files
  · rw [if_pos ho] at h2
    exact Res.noConfusion h2
  · rw [if_neg ho] at h2
    exact restoreEntriesLoop_mp_some rest _ _ _ _ h2

/-- After a successful run of the restore entries loop (distinct
sources, all present, no destination colliding with a source, prefix-closed
directories), the whole directory chain above every entry's original
path is present: a directory pruned by the relocation because all its
files were quarantined is re-created by `mkdir(parents=True)` when they
come back. -/
theorem restoreEntriesLoop_chain (entries : List (FsPath × FsPath))
    (mp mp' : Option FsPath) (s s' : FS)
    (h : restoreEntriesLoop entries mp s = .ok (mp', s'))
    (hc : dirsClosed s)
    (hsrc : ∀ e ∈ entries, e.1 ∈ s.files)
    (hnd : (entries.map Prod.fst).Nodup)
    (hds : ∀ e ∈ entries, e.2 ∉ entries.map Prod.fst) :
    ∀ e ∈ entries, ∀ d, d ≠ [] → d <+: parentPath e.2 → d ∈ s'.dirs := by
  induction entries generalizing mp s with
  | nil =>
    intro e he
    exact absurd he (List.not_mem_nil e)
  | cons e0 rest ih =>
    obtain ⟨q, o⟩ := e0
    intro e he d hdne hdpre
    have hq : q ∈ s.files := hsrc (q, o) (List.mem_cons_self _ _)
    simp only [restoreEntriesLoop] at h
    rw [if_pos hq] at h
    obtain ⟨s1, hs1, h2⟩ := Res.bind_eq_ok.mp h
    by_cases ho : o ∈ s1.files
    · rw [if_pos ho] at h2
      exact Res.noConfusion h2
    · rw [if_neg ho] at h2
      simp only [List.map_cons, List.nodup_cons] at hnd
      obtain ⟨hqrest, hndrest⟩ := hnd
      obtain ⟨hf1, _, _⟩ := mkdirParentsStep_files hs1
      rcases List.mem_cons.mp he with he0 | hemem
      · rw [he0] at hdpre
        have hd1 : d ∈ s1.dirs := by
          by_cases hpd : parentPath o ∈ s.dirs
          · rw [if_pos hpd] at hs1
            injection hs1 with h'
            subst h'
            exact hc _ hpd d hdne hdpre
          · rw [if_neg hpd] at hs1
            unfold mkdirParentsF at hs1
            by_cases hfo : parentPath o ∈ s.files
            · rw [if_pos hfo] at hs1
              exact Res.noConfusion hs1
            · rw [if_neg hfo] at hs1
              injection hs1 with h'
              subst h'
              exact mem_foldl_insertP_self _ (mem_prefixesOf.mpr ⟨hdne, hdpre⟩)
        exact restoreEntriesLoop_dirs_mono rest _ _ _ _ h2 d hd1
      · have hc1 : dirsClosed s1 := mkdirParentsStep_dirsClosed hs1 hc
        refine ih _ _ h2 hc1 ?_ hndrest ?_ e hemem d hdne hdpre
        · intro e' he'
          have h1 : e'.1 ∈ s.files := hsrc e' (List.mem_cons_of_mem _ he')
          have hne : e'.1 ≠ q := by
            intro hh
            exact hqrest (hh ▸ List.mem_map_of_mem Prod.fst he')
          exact mem_insertP.mpr (Or.inl (mem_eraseAllP.mpr ⟨by rw [hf1]; exact h1, hne⟩))
        · intro e' he'
          have := hds e' (List.mem_cons_of_mem _ he')
          simp only [List.map_cons, List.mem_cons, not_or] at this
          exact this.2

/-- Exact file inventory after a successful run of the restore entries
loop: the sources (still-quarantined copies) are gone, the destinations
(original paths) are back, everything else is untouched. -/
theorem restoreEntriesLoop_files_iff (entries : List (FsPath × FsPath))
    (mp mp' : Option FsPath) (s s' : FS)
    (h : restoreEntriesLoop entries mp s = .ok (mp', s'))
    (hsrc : ∀ e ∈ entries, e.1 ∈ s.files)
    (hnd : (entries.map Prod.fst).Nodup)
    (hds : ∀ e ∈ entries, e.2 ∉ entries.map Prod.fst) :
    ∀ f, f ∈ s'.files ↔
      (f ∈ s.files ∧ f ∉ entries.map Prod.fst) ∨ f ∈ entries.map Prod.snd := by
  induction entries generalizing mp s with
  | nil =>
    intro f
    rw [restoreEntriesLoop] at h
    injection h with h'
    injection h' with h1 h2
    rw [← h2]
    simp
  | cons e0 rest ih =>
    obtain ⟨q, o⟩ := e0
    intro f
    have hq : q ∈ s.files := hsrc (q, o) (List.mem_cons_self _ _)
    simp only [restoreEntriesLoop] at h
    rw [if_pos hq] at h
    obtain ⟨s1, hs1, h2⟩ := Res.bind_eq_ok.mp h
    by_cases ho : o ∈ s1.files
    · rw [if_pos ho] at h2
      exact Res.noConfusion h2
    · rw [if_neg ho] at h2
      simp only [List.map_cons, List.nodup_cons] at hnd
      obtain ⟨hqrest, hndrest⟩ := hnd
      obtain ⟨hf1, _, _⟩ := mkdirParentsStep_files hs1
      have honotsrc : o ∉ rest.map Prod.fst := by
        have := hds (q, o) (List.mem_cons_self _ _)
        simp only [List.map_cons, List.mem_cons, not_or] at this
        exact this.2
      have hsrc' : ∀ e' ∈ rest, e'.1 ∈ (renameF s1 q o).files := by
        intro e' he'
        have h1 : e'.1 ∈ s.files := hsrc e' (List.mem_cons_of_mem _ he')
        have hne : e'.1 ≠ q := by
          intro hh
          exact hqrest (hh ▸ List.mem_map_of_mem Prod.fst he')
        exact mem_insertP.mpr (Or.inl (mem_eraseAllP.mpr ⟨by rw [hf1]; exact h1, hne⟩))
      have hds' : ∀ e' ∈ rest, e'.2 ∉ rest.map Prod.fst := by
        intro e' he'
        have := hds e' (List.mem_cons_of_mem _ he')
        simp only [List.map_cons, List.mem_cons, not_or] at this
        exact this.2
      have hmid : ∀ g, g ∈ (renameF s1 q o).files ↔ (g ∈ s.files ∧ g ≠ q) ∨ g = o := by
        intro g
        show g ∈ insertP (eraseAllP s1.files q) o ↔ _
        rw [mem_insertP, mem_eraseAllP, hf1]
      have hih := ih _ _ h2 hsrc' hndrest hds'
      rw [hih f]
      simp only [List.map_cons, List.mem_cons, not_or]
      constructor
      · rintro (⟨hf2, hfr⟩ | hf2)
        · rcases (hmid f).mp hf2 with ⟨hfs, hfq⟩ | rfl
          · exact Or.inl ⟨hfs, hfq, hfr⟩
          · exact Or.inr (Or.inl rfl)
        · exact Or.inr (Or.inr hf2)
      · rintro (⟨hfs, hfq, hfr⟩ | rfl | hf2)
        · exact Or.inl ⟨(hmid f).mpr (Or.inl ⟨hfs, hfq⟩), hfr⟩
        · exact Or.inl ⟨(hmid f).mpr (Or.inr rfl), honotsrc⟩
        · exact Or.inr hf2

theorem cleanNames_not_mem {s : FS} (hcl : cleanNames s) {p : FsPath} {c : String}
    (hc : c ∈ p) (hpre : pyStartsWith c "_unlinked_files" = true) :
    p ∉ s.files ∧ p ∉ s.dirs := by
  constructor
  · intro hmem
    have h2 := hcl p (Or.inl hmem) c hc
    rw [hpre] at h2
    exact Bool.noConfusion h2
  · intro hmem
    have h2 := hcl p (Or.inr hmem) c hc
    rw [hpre] at h2
    exact Bool.noConfusion h2

theorem cleanNames_of_forall {s : FS}
    (h1 : ∀ p ∈ s.files, ∀ c ∈ p, pyStartsWith c "_unlinked_files" = false)
    (h2 : ∀ p ∈ s.dirs, ∀ c ∈ p, pyStartsWith c "_unlinked_files" = false) :
    cleanNames s := by
  intro p hp
  rcases hp with hp | hp
  · exact h1 p hp
  · exact h2 p hp

theorem dirsClosed_of_wf {root : FsPath} {s : FS} (hw : Wf root s) : dirsClosed s := by
  intro d hd q hqne hqpre
  by_cases hqe : q = d
  · rw [hqe]
    exact hd
  · exact hw.parentsClosed d (Or.inr hd) q hqne hqpre hqe

theorem parentPath_mem_dirs {root : FsPath} {s : FS} (hw : Wf root s) {o : FsPath}
    (ho : o ∈ s.files) (hor : strictUnder root o) : parentPath o ∈ s.dirs := by
  have hlen := strictUnder_length hor
  have hrlen : 1 ≤ root.length := by
    rcases root with _ | _
    · exact absurd rfl hw.root_ne
    · simp
  have h1 : (parentPath o).length = o.length - 1 := List.length_dropLast o
  have hone : parentPath o ≠ [] := by
    intro h0
    rw [h0] at h1
    simp at h1
    omega
  refine hw.parentsClosed o (Or.inl ho) _ hone (List.dropLast_prefix o) ?_
  intro h0
  rw [h0] at h1
  omega

theorem chain_mem_dirs {root : FsPath} {s : FS} (hw : Wf root s) {o q : FsPath}
    (ho : o ∈ s.files) (hor : strictUnder root o) (hq : q ≠ []) (hqp : q <+: parentPath o) :
    q ∈ s.dirs := by
  have hpo := parentPath_mem_dirs hw ho hor
  by_cases hqe : q = parentPath o
  · rw [hqe]
    exact hpo
  · exact hw.parentsClosed _ (Or.inr hpo) q hq hqp hqe

theorem prefix_of_concat_root {root : FsPath} {s : FS} (hw : Wf root s) {x : String}
    {q : FsPath} (hqne : q ≠ []) (hqpre : q <+: root ++ [x]) (hne : q ≠ root ++ [x]) :
    q ∈ s.dirs := by
  have h2 : q <+: root := by
    have h3 := prefix_dropLast_of_proper hqpre hne
    rwa [parentPath_concat] at h3
  by_cases hq : q = root
  · rw [hq]
    exact hw.root_dir
  · exact hw.parentsClosed root (Or.inr hw.root_dir) q hqne h2 hq

theorem prefix_of_target {root : FsPath} {s : FS} (hw : Wf root s) {x y : String}
    {q : FsPath} (hqne : q ≠ []) (hqpre : q <+: (root ++ [x]) ++ [y])
    (hne : q ≠ (root ++ [x]) ++ [y]) :
    q ∈ s.dirs ∨ q = root ++ [x] := by
  have h2 : q <+: root ++ [x] := by
    have h3 := prefix_dropLast_of_proper hqpre hne
    rwa [parentPath_concat] at h3
  by_cases hq : q = root ++ [x]
  · exact Or.inr hq
  · exact Or.inl (prefix_of_concat_root hw hqne h2 hq)

/-- The state after creating the batch directory, moving the unlinked
files into it and writing the record file is well-formed. -/
theorem wf_relocated {root rd rf : FsPath} {s : FS} {U : List FsPath}
    (hrd : rd = root ++ ["_unlinked_files"]) (hrf : rf = rd ++ ["_relocation_map.json"])
    (hw : Wf root s) (hclean : cleanNames s) (mm : Record) :
    Wf root (writeRec (relocateMoves rd U [] { s with dirs := insertP s.dirs rd }).2 rf mm) := by
  have hufpre : pyStartsWith "_unlinked_files" "_unlinked_files" = true :=
    relocationDirName_prefixed none
  have hufrd : "_unlinked_files" ∈ rd := by
    rw [hrd]
    exact List.mem_append_right _ (by simp)
  have hXd : (relocateMoves rd U [] { s with dirs := insertP s.dirs rd }).2.dirs
      = insertP s.dirs rd := relocateMoves_dirs rd U [] _
  have hXfup : ∀ f, f ∈ (relocateMoves rd U [] { s with dirs := insertP s.dirs rd }).2.files →
      f ∈ s.files ∨ ∃ p ∈ U, f = rd ++ [nameOf p] :=
    fun f hf => relocateMoves_files_new rd U [] { s with dirs := insertP s.dirs rd } f hf
  have hdirmem : ∀ d, d ∈ insertP s.dirs rd ↔ d ∈ s.dirs ∨ d = rd := fun d => mem_insertP
  refine ⟨?_, hw.root_ne, ?_, ?_, ?_, ?_⟩
  · show root ∈ (relocateMoves rd U [] { s with dirs := insertP s.dirs rd }).2.dirs
    rw [hXd]
    exact (hdirmem root).mpr (Or.inl hw.root_dir)
  · show (insertP (relocateMoves rd U [] _).2.files rf).Nodup
    exact nodup_insertP (relocateMoves_files_nodup rd U [] _ hw.nodupFiles)
  · show (relocateMoves rd U [] { s with dirs := insertP s.dirs rd }).2.dirs.Nodup
    rw [hXd]
    exact nodup_insertP hw.nodupDirs
  · intro p hp
    show p ∉ (relocateMoves rd U [] { s with dirs := insertP s.dirs rd }).2.dirs
    rw [hXd]
    intro hpd
    have hp2 : p ∈ (relocateMoves rd U [] _).2.files ∨ p = rf := mem_insertP.mp hp
    have hcase : p ∈ s.files ∨ ∃ x : String, p = rd ++ [x] := by
      rcases hp2 with hp2 | hp2
      · rcases hXfup p hp2 with h | ⟨p', _, hpe⟩
        · exact Or.inl h
        · exact Or.inr ⟨nameOf p', hpe⟩
      · exact Or.inr ⟨"_relocation_map.json", by rw [hp2, hrf]⟩
    rcases (hdirmem p).mp hpd with hpd2 | hpd2
    · rcases hcase with h | ⟨x, hpe⟩
      · exact hw.disj p h hpd2
      · have hin : "_unlinked_files" ∈ p := by
          rw [hpe]
          exact List.mem_append_left _ hufrd
        exact (cleanNames_not_mem hclean hin hufpre).2 hpd2
    · rcases hcase with h | ⟨x, hpe⟩
      · rw [hpd2] at h
        exact (cleanNames_not_mem hclean hufrd hufpre).1 h
      · rw [hpd2] at hpe
        have hlen := congrArg List.length hpe
        simp at hlen
  · intro p hp q hqne hqpre hqpe
    show q ∈ (relocateMoves rd U [] { s with dirs := insertP s.dirs rd }).2.dirs
    rw [hXd]
    have hcase : p ∈ s.files ∨ p ∈ s.dirs ∨ p = rd ∨ ∃ x : String, p = rd ++ [x] := by
      rcases hp with hp | hp
      · rcases mem_insertP.mp hp with hp2 | hp2
        · rcases hXfup p hp2 with h | ⟨p', _, hpe⟩
          · exact Or.inl h
          · exact Or.inr (Or.inr (Or.inr ⟨nameOf p', hpe⟩))
        · exact Or.inr (Or.inr (Or.inr ⟨"_relocation_map.json", by rw [hp2, hrf]⟩))
      · have hp3 : p ∈ insertP s.dirs rd := by
          rw [← hXd]
          exact hp
        rcases (hdirmem p).mp hp3 with hp2 | hp2
        · exact Or.inr (Or.inl hp2)
        · exact Or.inr (Or.inr (Or.inl hp2))
    rcases hcase with h | h | h | ⟨x, hpe⟩
    · exact (hdirmem q).mpr (Or.inl (hw.parentsClosed p (Or.inl h) q hqne hqpre hqpe))
    · exact (hdirmem q).mpr (Or.inl (hw.parentsClosed p (Or.inr h) q hqne hqpre hqpe))
    · rw [h, hrd] at hqpre hqpe
      exact (hdirmem q).mpr (Or.inl (prefix_of_concat_root hw hqne hqpre hqpe))
    · rw [hpe, hrd] at hqpre hqpe
      rcases prefix_of_target hw hqne hqpre hqpe with h2 | h2
      · exact (hdirmem q).mpr (Or.inl h2)
      · rw [← hrd] at h2
        exact (hdirmem q).mpr (Or.inr h2)

/-- What a successful relocation pass (batch suffix `None`, no session
map, platform ≠ darwin) does to a well-formed, record-free tree with no
`_unlinked_files*`-named entries: the returned record maps each unlinked
file's quarantined path to its original path; the resulting tree holds
the record file, the quarantined copies and the untouched files; the
pre-existing record store was empty so the new record is the file's
contents; directories are only ever the batch directory or old ones,
only directories strictly under the root disappear, and directories
with an untouched file below survive. -/
theorem relocate_run_facts {root rd rf : FsPath} {ft : List String} {linked : List FsPath}
    {U : List FsPath} {s s' : FS} {m : Record} {fuel : Nat}
    (hrd : rd = root ++ ["_unlinked_files"]) (hrf : rf = rd ++ ["_relocation_map.json"])
    (hU : U = unlinkedFiles root ft linked s)
    (hw : Wf root s) (hclean : cleanNames s) (hrecs : s.recs = [])
    (hbase : (U.map nameOf).Nodup)
    (hjson : ∀ p ∈ U, nameOf p ≠ "_relocation_map.json")
    (hrel : relocate_unlinked_files false root ft linked none none s fuel
        = .ok (some m, m, s')) :
    m = U.map (fun p => (rd ++ [nameOf p], p)) ∧
    U ≠ [] ∧
    (∀ f, f ∈ s'.files ↔ f = rf ∨ (f ∈ s.files ∧ f ∉ U) ∨ ∃ p ∈ U, f = rd ++ [nameOf p]) ∧
    s'.recs = [(rf, m)] ∧
    (∀ d ∈ s'.dirs, d = rd ∨ d ∈ s.dirs) ∧
    (∀ d ∈ s.dirs, d ∉ s'.dirs → strictUnder root d) ∧
    (∀ d ∈ s.dirs, (∃ f, f ∈ s.files ∧ f ∉ U ∧ strictUnder d f) → d ∈ s'.dirs) ∧
    Wf root s' := by
  have hufrd : "_unlinked_files" ∈ rd := by
    rw [hrd]
    exact List.mem_append_right _ (by simp)
  have hrdnm : rd ∉ s.files ∧ rd ∉ s.dirs :=
    cleanNames_not_mem hclean hufrd (relocationDirName_prefixed none)
  have hdn : relocationDirName none = "_unlinked_files" := rfl
  simp only [relocate_unlinked_files, hdn] at hrel
  rw [← hrd, ← hrf] at hrel
  rw [if_neg hrdnm.2] at hrel
  have hmkeq : mkdirF s rd = .ok { s with dirs := insertP s.dirs rd } := by
    have hc1 : ¬ (rd ∈ s.files ∨ rd ∈ s.dirs) := by
      rintro (h | h)
      · exact hrdnm.1 h
      · exact hrdnm.2 h
    have hc2 : parentPath rd ∈ s.dirs := by
      rw [hrd, parentPath_concat]
      exact hw.root_dir
    unfold mkdirF
    rw [if_neg hc1, if_pos hc2]
  rw [hmkeq] at hrel
  simp only [Res.bind] at hrel
  have huS : unlinkedFiles root ft linked { s with dirs := insertP s.dirs rd } = U := by
    rw [hU]
    rfl
  rw [huS] at hrel
  by_cases hune : U = []
  · exfalso
    rw [hune] at hrel
    rw [if_pos (show (relocateMoves rd [] [] { s with dirs := insertP s.dirs rd }).1 = []
      from rfl)] at hrel
    obtain ⟨s3, _, h2⟩ := Res.bind_eq_ok.mp hrel
    obtain ⟨s4, _, h3⟩ := Res.bind_eq_ok.mp h2
    injection h3 with h4
    injection h4 with h5 _
    exact Option.noConfusion h5
  · have hUsub : ∀ p ∈ U, p ∈ s.files := by
      intro p hp
      rw [hU] at hp
      exact (mem_candidateFiles.mp (mem_unlinkedFiles.mp hp).1).1
    have hUstrict : ∀ p ∈ U, strictUnder root p := by
      intro p hp
      rw [hU] at hp
      exact (mem_candidateFiles.mp (mem_unlinkedFiles.mp hp).1).2.1
    have hUnodup : U.Nodup := by
      rw [hU]
      unfold unlinkedFiles candidateFiles
      exact List.Nodup.filter _ (List.Nodup.filter _ hw.nodupFiles)
    have hUpar : ∀ p ∈ U, parentPath p ≠ rd := by
      intro p hp he
      have hpne : p ≠ [] := by
        intro h0
        have h1 := hUstrict p hp
        rw [h0] at h1
        have h2 := strictUnder_length h1
        simp at h2
      have hpeq : p = rd ++ [nameOf p] := by
        rw [← he]
        exact (parentPath_append_nameOf hpne).symm
      have hin : "_unlinked_files" ∈ p := by
        rw [hpeq]
        exact List.mem_append_left _ hufrd
      exact (cleanNames_not_mem hclean hin (relocationDirName_prefixed none)).1 (hUsub p hp)
    have hne1 : (relocateMoves rd U [] { s with dirs := insertP s.dirs rd }).1 ≠ [] :=
      relocateMoves_ne_nil rd U [] _ (Or.inl hune)
    rw [if_neg hne1] at hrel
    have hm_rec : (relocateMoves rd U [] { s with dirs := insertP s.dirs rd }).1
        = U.map (fun p => (rd ++ [nameOf p], p)) :=
      relocateMoves_record rd U [] _ (by intro p _; simp) hbase
    have hrf_not : rf ∉ (relocateMoves rd U [] { s with dirs := insertP s.dirs rd }).2.files := by
      intro hmem
      rcases relocateMoves_files_new rd U [] _ rf hmem with h | ⟨p, hp, hfq⟩
      · have hrfin : "_unlinked_files" ∈ rf := by
          rw [hrf]
          exact List.mem_append_left _ hufrd
        exact (cleanNames_not_mem hclean hrfin (relocationDirName_prefixed none)).1 h
      · rw [hrf] at hfq
        have h2 := List.append_cancel_left hfq
        simp at h2
        exact hjson p hp h2.symm
    rw [if_neg hrf_not] at hrel
    obtain ⟨s4, hprune, hres⟩ := Res.bind_eq_ok.mp hrel
    injection hres with hres1
    injection hres1 with ha hbc
    injection hbc with hb hcs
    have hm : m = U.map (fun p => (rd ++ [nameOf p], p)) := by
      rw [← hb, hm_rec]
    rw [hcs] at hprune
    have hwf_sW : Wf root (writeRec (relocateMoves rd U []
        { s with dirs := insertP s.dirs rd }).2 rf
        (relocateMoves rd U [] { s with dirs := insertP s.dirs rd }).1) :=
      wf_relocated hrd hrf hw hclean _
    obtain ⟨hPI, hwf', _⟩ := remove_empty_directories_spec false root fuel root _ s'
      hwf_sW (by intro h; exact absurd h (by simp)) (List.prefix_refl root) hprune
    have hXd : (relocateMoves rd U [] { s with dirs := insertP s.dirs rd }).2.dirs
        = insertP s.dirs rd := relocateMoves_dirs rd U [] _
    have hsWf_mem : ∀ f, f ∈ (writeRec (relocateMoves rd U []
        { s with dirs := insertP s.dirs rd }).2 rf
        (relocateMoves rd U [] { s with dirs := insertP s.dirs rd }).1).files ↔
        (f = rf ∨ (f ∈ s.files ∧ f ∉ U) ∨ ∃ p ∈ U, f = rd ++ [nameOf p]) := by
      intro f
      show f ∈ insertP (relocateMoves rd U [] _).2.files rf ↔ _
      rw [mem_insertP]
      constructor
      · rintro (h | rfl)
        · rcases relocateMoves_files_new rd U [] _ f h with h2 | ⟨p, hp, hfe⟩
          · by_cases hfU : f ∈ U
            · exact absurd h (relocateMoves_source_gone rd U [] _ f hfU hUnodup (hUpar f hfU))
            · exact Or.inr (Or.inl ⟨h2, hfU⟩)
          · exact Or.inr (Or.inr ⟨p, hp, hfe⟩)
        · exact Or.inl rfl
      · rintro (rfl | ⟨hfs, hfU⟩ | ⟨p, hp, rfl⟩)
        · exact Or.inr rfl
        · exact Or.inl (relocateMoves_files_keep rd U [] _ f hfs hfU)
        · exact Or.inl (relocateMoves_target_present rd U [] _ hbase hUpar p hp)
    have hXr : (relocateMoves rd U [] { s with dirs := insertP s.dirs rd }).2.recs
        = s.recs := relocateMoves_recs rd U [] _
    refine ⟨hm, hune, ?_, ?_, ?_, ?_, ?_, hwf'⟩
    · intro f
      rw [hPI.files_eq]
      exact hsWf_mem f
    · rw [hPI.recs_eq]
      show (rf, (relocateMoves rd U [] _).1)
          :: ((relocateMoves rd U [] _).2.recs.filter _) = _
      rw [hXr, hb, hrecs]
      rfl
    · intro d hd
      have h2 := hPI.dirs_sub d hd
      have h3 : d ∈ insertP s.dirs rd := by
        rw [← hXd]
        exact h2
      rcases mem_insertP.mp h3 with h4 | h4
      · exact Or.inr h4
      · exact Or.inl h4
    · intro d hd hnd
      refine hPI.removed_under d ?_ hnd
      show d ∈ (relocateMoves rd U [] _).2.dirs
      rw [hXd]
      exact mem_insertP.mpr (Or.inl hd)
    · intro d hd ⟨f, hf, hfU, hfd⟩
      refine hPI.keep_filedesc d ?_ ⟨f, ?_, hfd⟩
      · show d ∈ (relocateMoves rd U [] _).2.dirs
        rw [hXd]
        exact mem_insertP.mpr (Or.inl hd)
      · exact (hsWf_mem f).mpr (Or.inr (Or.inl ⟨hf, hfU⟩))

/-- Claim C1 (amended): the relocate-then-restore round trip reproduces
the original tree only under the conditions the code actually
guarantees.  For a well-formed tree with an empty record store, no
`_unlinked_files*`-named entry, in which every directory strictly under
the root holds some file (pre-existing empty directories are destroyed
by the pass and never restored — see the counterexample), on a
non-darwin platform, when the pass finds unlinked files with pairwise
distinct basenames none of which is named `_relocation_map.json`, and
both the relocation and the this-session restore return without an
exception: the final tree has exactly the original files and exactly
the original directories, the record store is empty again, and no
`_unlinked_files*` directory (nor any other entry so named) remains. -/
theorem C1_relocate_restore_round_trip
    (root : FsPath) (ft : List String) (linked : List FsPath)
    (s s' s₂ : FS) (m : Record) (fuel fuel₂ : Nat)
    (hw : Wf root s) (hclean : cleanNames s) (hrecs : s.recs = [])
    (hnoempty : ∀ d ∈ s.dirs, strictUnder root d → ∃ f ∈ s.files, strictUnder d f)
    (hbase : ((unlinkedFiles root ft linked s).map nameOf).Nodup)
    (hjson : ∀ p ∈ unlinkedFiles root ft linked s, nameOf p ≠ "_relocation_map.json")
    (hrel : relocate_unlinked_files false root ft linked none none s fuel
        = .ok (some m, m, s'))
    (hrest : restore_unlinked_files false root (some m) s' fuel₂ = .ok s₂) :
    (∀ f, f ∈ s₂.files ↔ f ∈ s.files) ∧
    (∀ d, d ∈ s₂.dirs ↔ d ∈ s.dirs) ∧
    s₂.recs = [] ∧
    (∀ d ∈ s₂.dirs, ∀ c ∈ d, pyStartsWith c "_unlinked_files" = false) := by
  obtain ⟨rd, hrd⟩ : ∃ rd, rd = root ++ ["_unlinked_files"] := ⟨_, rfl⟩
  obtain ⟨rf, hrf⟩ : ∃ rf, rf = rd ++ ["_relocation_map.json"] := ⟨_, rfl⟩
  obtain ⟨U, hU⟩ : ∃ U, U = unlinkedFiles root ft linked s := ⟨_, rfl⟩
  rw [← hU] at hbase hjson
  obtain ⟨hm, hune, hfS, hrS, hdUp, hdKeep0, hdKeepF, hwf'⟩ :=
    relocate_run_facts hrd hrf hU hw hclean hrecs hbase hjson hrel
  have hufrd : "_unlinked_files" ∈ rd := by
    rw [hrd]
    exact List.mem_append_right _ (by simp)
  have hUsub : ∀ p ∈ U, p ∈ s.files := by
    intro p hp
    rw [hU] at hp
    exact (mem_candidateFiles.mp (mem_unlinkedFiles.mp hp).1).1
  have hUstrict : ∀ p ∈ U, strictUnder root p := by
    intro p hp
    rw [hU] at hp
    exact (mem_candidateFiles.mp (mem_unlinkedFiles.mp hp).1).2.1
  have hsrc_eq : m.map Prod.fst = U.map (fun p => rd ++ [nameOf p]) := by
    rw [hm, List.map_map]
    rfl
  have hdst_eq : m.map Prod.snd = U := by
    rw [hm, List.map_map,
      show (Prod.snd ∘ fun p : FsPath => (rd ++ [nameOf p], p)) = id from rfl, List.map_id]
  simp only [restore_unlinked_files, retrieveThisMaps, Res.bind] at hrest
  simp only [restore_unlinked_files_maps] at hrest
  obtain ⟨u, hloop, hprune2⟩ := Res.bind_eq_ok.mp hrest
  rw [restoreMapsLoop] at hloop
  obtain ⟨r, hent, hafter⟩ := Res.bind_eq_ok.mp hloop
  obtain ⟨mp₁, t⟩ := r
  obtain ⟨p₀, urest, hU0⟩ := List.exists_cons_of_ne_nil hune
  have hm0 : m = (rd ++ [nameOf p₀], p₀) :: urest.map (fun p => (rd ++ [nameOf p], p)) := by
    rw [hm, hU0]
    rfl
  have hq0 : rd ++ [nameOf p₀] ∈ s'.files :=
    (hfS _).mpr (Or.inr (Or.inr ⟨p₀, by rw [hU0]; exact List.mem_cons_self _ _, rfl⟩))
  have hentC : restoreEntriesLoop ((rd ++ [nameOf p₀], p₀)
      :: urest.map (fun p => (rd ++ [nameOf p], p))) none s' = .ok (mp₁, t) := by
    rw [← hm0]
    exact hent
  have hmp₁ : mp₁ = some rf := by
    have h2 := restoreEntriesLoop_mp_first hentC hq0
    rw [parentPath_concat] at h2
    rw [h2, hrf]
  subst hmp₁
  have hafter2 : restoreMapsLoop [] (if rf ∈ t.files then unlinkF t rf else t) = .ok u :=
    hafter
  rw [restoreMapsLoop] at hafter2
  injection hafter2 with hu
  have hsrcm : ∀ e ∈ m, e.1 ∈ s'.files := by
    intro e he
    rw [hm] at he
    obtain ⟨p, hp, rfl⟩ := List.mem_map.mp he
    exact (hfS _).mpr (Or.inr (Or.inr ⟨p, hp, rfl⟩))
  have hndm : (m.map Prod.fst).Nodup := by
    rw [hsrc_eq]
    exact nodup_map_concat rd hbase
  have hdsm : ∀ e ∈ m, e.2 ∉ m.map Prod.fst := by
    intro e he hmem
    rw [hsrc_eq] at hmem
    obtain ⟨p', hp', hpe⟩ := List.mem_map.mp hmem
    have he2 : e.2 ∈ s.files := by
      rw [hm] at he
      obtain ⟨p, hp, rfl⟩ := List.mem_map.mp he
      exact hUsub p hp
    have hin : "_unlinked_files" ∈ e.2 := by
      rw [← hpe]
      exact List.mem_append_left _ hufrd
    exact (cleanNames_not_mem hclean hin (relocationDirName_prefixed none)).1 he2
  have hfT := restoreEntriesLoop_files_iff m none (some rf) s' t hent hsrcm hndm hdsm
  have hdMono := restoreEntriesLoop_dirs_mono m none (some rf) s' t hent
  have hdUpper := restoreEntriesLoop_dirs_upper m none (some rf) s' t hent
  have hchain := restoreEntriesLoop_chain m none (some rf) s' t hent
    (dirsClosed_of_wf hwf') hsrcm hndm hdsm
  have hrecT := restoreEntriesLoop_recs_eq m none (some rf) s' t hent
  have hfndT := restoreEntriesLoop_files_nodup m none (some rf) s' t hent hwf'.nodupFiles
  have hdndT := restoreEntriesLoop_dirs_nodup m none (some rf) s' t hent hwf'.nodupDirs
  have hrfT : rf ∈ t.files := by
    rw [hfT rf]
    refine Or.inl ⟨(hfS rf).mpr (Or.inl rfl), ?_⟩
    rw [hsrc_eq]
    intro hmem
    obtain ⟨p', hp', hpe⟩ := List.mem_map.mp hmem
    rw [hrf] at hpe
    have h2 := List.append_cancel_left hpe
    simp at h2
    exact hjson p' hp' h2
  rw [if_pos hrfT] at hu
  subst hu
  have hufiles : ∀ f, f ∈ (unlinkF t rf).files ↔ f ∈ s.files := by
    intro f
    show f ∈ eraseAllP t.files rf ↔ _
    rw [mem_eraseAllP, hfT f, hdst_eq, hsrc_eq]
    constructor
    · rintro ⟨h | hfU, hne⟩
      · rcases h with ⟨hfs', hnsrc⟩
        rcases (hfS f).mp hfs' with rfl | ⟨hfs, _⟩ | ⟨p, hp, rfl⟩
        · exact absurd rfl hne
        · exact hfs
        · exact absurd (List.mem_map_of_mem _ hp) hnsrc
      · exact hUsub f hfU
    · intro hfs
      have hfne : f ≠ rf := by
        intro h0
        have hin : "_unlinked_files" ∈ f := by
          rw [h0, hrf]
          exact List.mem_append_left _ hufrd
        exact (cleanNames_not_mem hclean hin (relocationDirName_prefixed none)).1 hfs
      refine ⟨?_, hfne⟩
      by_cases hfU : f ∈ U
      · exact Or.inr hfU
      · refine Or.inl ⟨(hfS f).mpr (Or.inr (Or.inl ⟨hfs, hfU⟩)), ?_⟩
        intro hmem
        obtain ⟨p', hp', hpe⟩ := List.mem_map.mp hmem
        have hin : "_unlinked_files" ∈ f := by
          rw [← hpe]
          exact List.mem_append_left _ hufrd
        exact (cleanNames_not_mem hclean hin (relocationDirName_prefixed none)).1 hfs
  have hudUpper : ∀ d ∈ t.dirs, d = rd ∨ d ∈ s.dirs := by
    intro d hd
    rcases hdUpper d hd with h | ⟨e, he, hpre⟩
    · exact hdUp d h
    · have he2 : e.2 ∈ U := by
        rw [hm] at he
        obtain ⟨p, hp, rfl⟩ := List.mem_map.mp he
        exact hp
      obtain ⟨hdne, hdpre⟩ := mem_prefixesOf.mp hpre
      exact Or.inr (chain_mem_dirs hw (hUsub _ he2) (hUstrict _ he2) hdne hdpre)
  have hwfU : Wf root (unlinkF t rf) := by
    refine ⟨?_, hw.root_ne, ?_, ?_, ?_, ?_⟩
    · show root ∈ t.dirs
      exact hdMono root hwf'.root_dir
    · show (eraseAllP t.files rf).Nodup
      exact nodup_eraseAllP hfndT
    · show t.dirs.Nodup
      exact hdndT
    · intro p hp
      show p ∉ t.dirs
      intro hpd
      have hpf : p ∈ s.files := (hufiles p).mp hp
      rcases hudUpper p hpd with rfl | hpd2
      · exact (cleanNames_not_mem hclean hufrd (relocationDirName_prefixed none)).1 hpf
      · exact hw.disj p hpf hpd2
    · intro p hp q hqne hqpre hqpe
      show q ∈ t.dirs
      rcases hp with hp | hp
      · have hp2 : p ∈ t.files ∧ p ≠ rf := mem_eraseAllP.mp hp
        rcases (hfT p).mp hp2.1 with ⟨hps', _⟩ | hpU
        · exact hdMono q (hwf'.parentsClosed p (Or.inl hps') q hqne hqpre hqpe)
        · rw [hdst_eq] at hpU
          have hem : (rd ++ [nameOf p], p) ∈ m := by
            rw [hm]
            exact List.mem_map_of_mem _ hpU
          exact hchain _ hem q hqne (prefix_dropLast_of_proper hqpre hqpe)
      · rcases hdUpper p hp with hps' | ⟨e, he, hpre⟩
        · exact hdMono q (hwf'.parentsClosed p (Or.inr hps') q hqne hqpre hqpe)
        · obtain ⟨hpne2, hppre⟩ := mem_prefixesOf.mp hpre
          exact hchain _ he q hqne (hqpre.trans hppre)
  obtain ⟨hPI2, hwf2, hnc2⟩ := remove_empty_directories_spec false root fuel₂ root _ s₂
    hwfU (by intro h; exact absurd h (by simp)) (List.prefix_refl root) hprune2
  have hfFinal : ∀ f, f ∈ s₂.files ↔ f ∈ s.files := by
    intro f
    rw [hPI2.files_eq]
    exact hufiles f
  have hrFinal : s₂.recs = [] := by
    rw [hPI2.recs_eq]
    show List.filter _ t.recs = []
    rw [hrecT, hrS]
    simp
  have hrdnot : rd ∉ s₂.dirs := by
    intro hmem
    have hchildless : childless s₂ rd := by
      rw [childless_iff]
      intro p hp hchild
      have hrdp : rd <+: p := childOf_parent_prefix hchild
      have hin : "_unlinked_files" ∈ p := hrdp.subset hufrd
      rcases hp with hp | hp
      · have hp2 : p ∈ s.files := (hfFinal p).mp hp
        exact (cleanNames_not_mem hclean hin (relocationDirName_prefixed none)).1 hp2
      · have hpu : p ∈ t.dirs := hPI2.dirs_sub p hp
        rcases hudUpper p hpu with rfl | hp2
        · have := childOf_length hchild
          omega
        · exact (cleanNames_not_mem hclean hin (relocationDirName_prefixed none)).2 hp2
    have hsu : strictUnder root rd := by
      refine ⟨by rw [hrd]; exact List.prefix_append _ _, ?_⟩
      intro h0
      have h1 := congrArg List.length h0
      rw [hrd] at h1
      simp at h1
    exact hnc2 rd hmem hsu hchildless
  have hdFinal : ∀ d, d ∈ s₂.dirs ↔ d ∈ s.dirs := by
    intro d
    constructor
    · intro hd
      have hdu : d ∈ t.dirs := hPI2.dirs_sub d hd
      rcases hudUpper d hdu with rfl | h2
      · exact absurd hd hrdnot
      · exact h2
    · intro hd
      by_cases hsu : strictUnder root d
      · obtain ⟨f, hf, hfd⟩ := hnoempty d hd hsu
        have hdne : d ≠ [] := by
          intro h0
          rw [h0] at hsu
          have h1 := strictUnder_length hsu
          simp at h1
        have hdu : d ∈ t.dirs := by
          by_cases hfU : f ∈ U
          · have hem : (rd ++ [nameOf f], f) ∈ m := by
              rw [hm]
              exact List.mem_map_of_mem _ hfU
            exact hchain _ hem d hdne (prefix_dropLast_of_proper hfd.1 hfd.2)
          · exact hdMono d (hdKeepF d hd ⟨f, hf, hfU, hfd⟩)
        exact hPI2.keep_filedesc d hdu ⟨f, (hufiles f).mpr hf, hfd⟩
      · have hds' : d ∈ s'.dirs := by
          by_contra hnot
          exact hsu (hdKeep0 d hd hnot)
        have hdu : d ∈ t.dirs := hdMono d hds'
        by_contra hnot2
        exact hsu (hPI2.removed_under d hdu hnot2)
  refine ⟨hfFinal, hdFinal, hrFinal, ?_⟩
  intro d hd c hc
  exact hclean d (Or.inr ((hdFinal d).mp hd)) c hc

/-- Claim C1 (counterexample): a tree holding a pre-existing EMPTY
directory `r/empty` is not reproduced by the round trip: the final
`remove_empty_directories(root)` of the relocation pass deletes
`r/empty`, and the restore never re-creates it (it only re-creates
parents of restored files), so the resulting tree differs from the tree
before relocation. -/
theorem C1_counterexample :
    relocate_unlinked_files false ["r"] ["pdf"] [] none none
        { files := [["r", "b.pdf"]], dirs := [["r"], ["r", "empty"]], recs := [] } 30
      = .ok (some [(["r", "_unlinked_files", "b.pdf"], ["r", "b.pdf"])],
             [(["r", "_unlinked_files", "b.pdf"], ["r", "b.pdf"])],
             { files := [["r", "_unlinked_files", "_relocation_map.json"], ["r", "_unlinked_files", "b.pdf"]],
               dirs := [["r", "_unlinked_files"], ["r"]],
               recs := [(["r", "_unlinked_files", "_relocation_map.json"],
                         [(["r", "_unlinked_files", "b.pdf"], ["r", "b.pdf"])])] }) ∧
      restore_unlinked_files false ["r"]
          (some [(["r", "_unlinked_files", "b.pdf"], ["r", "b.pdf"])])
          { files := [["r", "_unlinked_files", "_relocation_map.json"], ["r", "_unlinked_files", "b.pdf"]],
            dirs := [["r", "_unlinked_files"], ["r"]],
            recs := [(["r", "_unlinked_files", "_relocation_map.json"],
                      [(["r", "_unlinked_files", "b.pdf"], ["r", "b.pdf"])])] } 30
        = .ok { files := [["r", "b.pdf"]], dirs := [["r"]], recs := [] } ∧
      ["r", "empty"] ∈ ({ files := [["r", "b.pdf"]], dirs := [["r"], ["r", "empty"]], recs := [] } : FS).dirs ∧
      ["r", "empty"] ∉ ({ files := [["r", "b.pdf"]], dirs := [["r"]], recs := [] } : FS).dirs :=
  ⟨rfl, rfl, by decide, by decide⟩

theorem C1_relocate_restore_round_trip_witness :
    (∀ f, f ∈ ({ files := [["r", "sub", "c.pdf"]], dirs := [["r", "sub"], ["r"]], recs := [] } : FS).files ↔
        f ∈ ({ files := [["r", "sub", "c.pdf"]], dirs := [["r"], ["r", "sub"]], recs := [] } : FS).files) ∧
      (∀ d, d ∈ ({ files := [["r", "sub", "c.pdf"]], dirs := [["r", "sub"], ["r"]], recs := [] } : FS).dirs ↔
        d ∈ ({ files := [["r", "sub", "c.pdf"]], dirs := [["r"], ["r", "sub"]], recs := [] } : FS).dirs) ∧
      ({ files := [["r", "sub", "c.pdf"]], dirs := [["r", "sub"], ["r"]], recs := [] } : FS).recs = [] ∧
      (∀ d ∈ ({ files := [["r", "sub", "c.pdf"]], dirs := [["r", "sub"], ["r"]], recs := [] } : FS).dirs,
        ∀ c ∈ d, pyStartsWith c "_unlinked_files" = false) :=
  C1_relocate_restore_round_trip ["r"] ["pdf"] []
    { files := [["r", "sub", "c.pdf"]], dirs := [["r"], ["r", "sub"]], recs := [] }
    { files := [["r", "_unlinked_files", "_relocation_map.json"], ["r", "_unlinked_files", "c.pdf"]],
      dirs := [["r", "_unlinked_files"], ["r"]],
      recs := [(["r", "_unlinked_files", "_relocation_map.json"],
                [(["r", "_unlinked_files", "c.pdf"], ["r", "sub", "c.pdf"])])] }
    { files := [["r", "sub", "c.pdf"]], dirs := [["r", "sub"], ["r"]], recs := [] }
    [(["r", "_unlinked_files", "c.pdf"], ["r", "sub", "c.pdf"])] 30 30
    (Wf_of_WfB (by decide)) (cleanNames_of_forall (by decide) (by decide)) rfl
    (by decide) (by decide) (by decide) rfl rfl

end ZotUtil
